import Mathlib

/-!
# Verification of the flat-list document algorithms

Shallow embedding of the core algorithms of the `tiptap-extension-flat-list`
repository: the indent/dedent mutation commands (`src/extension-ordered.ts`,
`FlatListCore.addCommands`), the postprocessor pass
(`flatListPostprocessorPlugin`), the paste normalizer (`flatListPastePlugin`,
`transformPasted`), the flat-to-nested HTML folder (`joinListElements`) and
indent inference on parse (`computeIndent` / `parseIntegerAttr`).

The document is modelled as the list of the top-level blocks of the
ProseMirror document; a flat list item is a block carrying its attributes
(`indent`, `counter`, `checked`, `_isTempPropped`) and the length of its
inline content.  JS numbers holding indents/counters are modelled as `Int`
(all reachable values are integers); positions are replaced by list indices,
which is faithful because attribute rewrites do not change node sizes.
-/

set_option linter.unusedVariables false

namespace FlatList

/-- The list type of a flat list item: `"ordered" | "unordered" | "task"`
(`src/list-type.ts`). -/
inductive LType where
  | ordered
  | unordered
  | task
deriving DecidableEq

/-- Attributes and content of a flat list item node.  `counter` is only
meaningful for ordered items and `checked` for task items (they exist with
default values on the others, mirroring per-extension `addAttributes`).
`contentLen` is the length of the node's inline content. -/
structure Item where
  ltype : LType
  indent : Int
  counter : Int
  checked : Bool
  isTempPropped : Bool
  contentLen : Nat
deriving DecidableEq

/-- A top-level block of the document: a flat list item, or any other block
node (paragraph, heading, ...). -/
inductive Block where
  | item : Item → Block
  | other : Block
deriving DecidableEq

/-- `isFlatListNode` (`src/list-type.ts`): whether a node is one of the three
flat list item types. -/
def isFlatListNode : Block → Bool
  | .item _ => true
  | .other => false

/-- A convenient constructor: an unordered item with the given indent and no
other interesting attributes. -/
def uItem (indent : Int) : Block :=
  .item ⟨.unordered, indent, 1, false, false, 1⟩

/-- A convenient constructor: an ordered item with the given indent and
counter. -/
def oItem (indent counter : Int) : Block :=
  .item ⟨.ordered, indent, counter, false, false, 1⟩

/-- `tr.setNodeAttribute(pos, "indent", n)`: rewrite the indent attribute of a
list item, keeping everything else. -/
def setIndentB (n : Int) : Block → Block
  | .item it => .item { it with indent := n }
  | .other => .other

/-! ## The staircase invariant

Spec §8: for all adjacent list items `a` (earlier) then `b` (later) in the
same container, `b.indent ≤ a.indent + 1`.  Pairs involving a non-list block
are unconstrained. -/

/-- The staircase constraint on one pair of (optional) adjacent blocks. -/
def stairRelO : Option Block → Option Block → Prop
  | some (.item a), some (.item b) => b.indent ≤ a.indent + 1
  | _, _ => True

instance (a b : Option Block) : Decidable (stairRelO a b) := by
  unfold stairRelO
  rcases a with _ | (a | _) <;> rcases b with _ | (b | _) <;> exact inferInstance

/-- The staircase invariant for a whole sequence of sibling blocks. -/
def Staircase (l : List Block) : Prop := ∀ i : Nat, stairRelO l[i]? l[i + 1]?

/-- Executable check of the staircase invariant. -/
def staircaseB : List Block → Bool
  | .item a :: .item b :: rest =>
      decide (b.indent ≤ a.indent + 1) && staircaseB (.item b :: rest)
  | _ :: rest => staircaseB rest
  | [] => true

theorem staircase_cons (a : Block) (rest : List Block) :
    Staircase (a :: rest) ↔ stairRelO (some a) rest[0]? ∧ Staircase rest := by
  constructor
  · intro h
    exact ⟨by simpa using h 0, fun i => by simpa using h (i + 1)⟩
  · rintro ⟨h0, hr⟩ i
    cases i with
    | zero => simpa using h0
    | succ i => simpa using hr i

theorem staircase_iff (l : List Block) : Staircase l ↔ staircaseB l = true := by
  induction l with
  | nil => simp [Staircase, stairRelO, staircaseB]
  | cons a rest ih =>
    rcases a with a | _
    · rcases rest with _ | ⟨b, rest'⟩
      · simp [staircase_cons, staircaseB, Staircase, stairRelO]
      · rcases b with b | _
        · simp [staircase_cons, staircaseB, ih, stairRelO]
        · simp [staircase_cons, staircaseB, ih, stairRelO]
    · simp [staircase_cons, staircaseB, ih, stairRelO]

/-! ## The Indent command

`indentFlatListItem` (`FlatListCore.addCommands` in `src/extension-ordered.ts`,
lines 289–326).  For every flat list node in the selection's ranges it computes
`newIndent = indent + 1` from the *original* document (`state.doc`), looks up
the immediately preceding sibling in the *transaction's* document (`tr.doc`,
i.e. with the changes staged so far), and stages the indent change only when
`newIndent ≤ prevSiblingIndent + 1`.  Positions are stable under attribute
rewrites, so blocks are addressed by index. -/

/-- The indent of the sibling immediately before index `i`
(`resolvedInTr.parent.childBefore(...)`): its indent attribute when it is a
flat list item, `-1` when there is no previous sibling or it is not one. -/
def prevSiblingIndent (blocks : List Block) : Nat → Int
  | 0 => -1
  | i + 1 =>
    match blocks[i]? with
    | some (.item p) => p.indent
    | _ => -1

/-- One visit of `indentFlatListItem`'s `nodesBetween` callback, at block
index `i`.  State: the transaction's document so far and the `applicable`
flag. -/
def indentStep (orig : List Block) (st : List Block × Bool) (i : Nat) :
    List Block × Bool :=
  match orig[i]? with
  | some (.item it) =>
      let newIndent := it.indent + 1
      if newIndent ≤ prevSiblingIndent st.1 i + 1 then
        (st.1.modify (setIndentB newIndent) i, true)
      else st
  | _ => st

/-- The block indices intersecting a selection range, both endpoints
included (the model of `state.doc.nodesBetween(from, to, ...)` restricted to
the document's children). -/
def rangeIdxs (r : Nat × Nat) : List Nat := List.range' r.1 (r.2 + 1 - r.1)

/-- `indentFlatListItem`: visit every selected block, staging indent
increments; the second component is the command's return value (`applicable`).
When it is `false` no transaction is dispatched, and indeed the returned
document equals the input in that case. -/
def indentFlatListItem (doc : List Block) (ranges : List (Nat × Nat)) :
    List Block × Bool :=
  ranges.foldl (fun st r => (rangeIdxs r).foldl (indentStep doc) st) (doc, false)

/-! ### Characterization of Indent on a single selection range -/

theorem prevSiblingIndent_congr {l l' : List Block} (i : Nat)
    (h : ∀ j, j < i → l[j]? = l'[j]?) :
    prevSiblingIndent l i = prevSiblingIndent l' i := by
  cases i with
  | zero => rfl
  | succ j => simp only [prevSiblingIndent, h j (Nat.lt_succ_self j)]

/-- Everything `indentStep` at index `i` leaves alone. -/
theorem indentStep_getElem?_ne (orig : List Block) (st : List Block × Bool)
    (i j : Nat) (hij : i ≠ j) :
    (indentStep orig st i).1[j]? = st.1[j]? := by
  unfold indentStep
  rcases h : orig[i]? with _ | (it | _)
  · rfl
  · show (if it.indent + 1 ≤ prevSiblingIndent st.1 i + 1
        then (st.1.modify (setIndentB (it.indent + 1)) i, true) else st).1[j]? = st.1[j]?
    split
    · simp [List.getElem?_modify, hij]
    · rfl
  · rfl

/-- The workhorse induction for the single-range behavior of Indent:
processing the indices `[f, f+n)` against original document `orig`, starting
from a state that still agrees with `orig` on the unprocessed region. -/
theorem indentGo (orig : List Block) (n : Nat) :
    ∀ (f : Nat) (cur : List Block) (b : Bool),
      (∀ j, f ≤ j → cur[j]? = orig[j]?) →
      ((∀ j, j < f → ((List.range' f n).foldl (indentStep orig) (cur, b)).1[j]? = cur[j]?) ∧
       (∀ i, f + n ≤ i → ((List.range' f n).foldl (indentStep orig) (cur, b)).1[i]? = cur[i]?) ∧
       (∀ i it, f ≤ i → i < f + n → orig[i]? = some (.item it) →
          ((List.range' f n).foldl (indentStep orig) (cur, b)).1[i]? =
            some (.item (if it.indent + 1 ≤
                prevSiblingIndent ((List.range' f n).foldl (indentStep orig) (cur, b)).1 i + 1
              then { it with indent := it.indent + 1 } else it))) ∧
       (∀ i, f ≤ i → i < f + n → (∀ it, orig[i]? ≠ some (.item it)) →
          ((List.range' f n).foldl (indentStep orig) (cur, b)).1[i]? = cur[i]?) ∧
       (((List.range' f n).foldl (indentStep orig) (cur, b)).2 = true ↔
          b = true ∨ ∃ i it, f ≤ i ∧ i < f + n ∧ orig[i]? = some (.item it) ∧
            it.indent + 1 ≤
              prevSiblingIndent ((List.range' f n).foldl (indentStep orig) (cur, b)).1 i + 1)) := by
  induction n with
  | zero =>
    intro f cur b hagree
    refine ⟨fun j _ => rfl, fun i _ => rfl, ?_, fun i h1 h2 _ => rfl, ?_⟩
    · intro i it h1 h2
      omega
    · simp only [List.range'_zero, List.foldl_nil]
      constructor
      · intro hb; exact Or.inl hb
      · rintro (hb | ⟨i, it, h1, h2, _⟩)
        · exact hb
        · omega
  | succ n ih =>
    intro f cur b hagree
    rw [List.range'_succ, List.foldl_cons]
    have hne : ∀ j, j ≠ f → (indentStep orig (cur, b) f).1[j]? = cur[j]? := by
      intro j hj
      exact indentStep_getElem?_ne orig (cur, b) f j (fun h => hj h.symm)
    have hagree' : ∀ j, f + 1 ≤ j → (indentStep orig (cur, b) f).1[j]? = orig[j]? := by
      intro j hj
      rw [hne j (by omega)]
      exact hagree j (by omega)
    obtain ⟨A, B, C, C2, D⟩ :=
      ih (f + 1) (indentStep orig (cur, b) f).1 (indentStep orig (cur, b) f).2 hagree'
    simp only [Prod.mk.eta] at A B C C2 D
    have hlow : ∀ j, j < f →
        ((List.range' (f+1) n).foldl (indentStep orig) (indentStep orig (cur, b) f)).1[j]? =
          cur[j]? := by
      intro j hj
      rw [A j (by omega), hne j (by omega)]
    -- the previous-sibling indent of `f` is untouched by the whole pass
    have hprevf : prevSiblingIndent
        ((List.range' (f+1) n).foldl (indentStep orig) (indentStep orig (cur, b) f)).1 f =
        prevSiblingIndent cur f :=
      prevSiblingIndent_congr f (fun j hj => hlow j hj)
    -- the value at `f` after the pass is what `indentStep` left there
    have hatf : ((List.range' (f+1) n).foldl (indentStep orig) (indentStep orig (cur, b) f)).1[f]? =
        (indentStep orig (cur, b) f).1[f]? :=
      A f (by omega)
    refine ⟨hlow, ?_, ?_, ?_, ?_⟩
    · intro i hi
      rw [B i (by omega), hne i (by omega)]
    · intro i it h1 h2
      rcases Nat.eq_or_lt_of_le h1 with rfl | hlt
      · intro hitem
        rw [hatf, hprevf]
        have hlhs : (indentStep orig (cur, b) f).1[f]? =
            (if it.indent + 1 ≤ prevSiblingIndent cur f + 1
             then ((cur.modify (setIndentB (it.indent + 1)) f : List Block), true)
             else ((cur : List Block), b)).1[f]? := by
          unfold indentStep
          rw [hitem]
        rw [hlhs]
        split
        · simp [List.getElem?_modify, hagree f (Nat.le_refl f), hitem, setIndentB]
        · exact (hagree f (Nat.le_refl f)).trans hitem
      · intro hitem
        exact C i it hlt (by omega) hitem
    · intro i h1 h2 hnot
      rcases Nat.eq_or_lt_of_le h1 with rfl | hlt
      · rw [hatf]
        unfold indentStep
        rcases h : orig[f]? with _ | (it | _)
        · rfl
        · exact absurd h (hnot it)
        · rfl
      · rw [C2 i hlt (by omega) hnot, hne i (by omega)]
    · -- the applicable flag
      have hflagf : (indentStep orig (cur, b) f).2 = true ↔
          b = true ∨ ∃ it, orig[f]? = some (.item it) ∧
            it.indent + 1 ≤ prevSiblingIndent cur f + 1 := by
        unfold indentStep
        rcases h : orig[f]? with _ | (it | _)
        · constructor
          · intro hb; exact Or.inl hb
          · rintro (hb | ⟨it, hit, _⟩)
            · exact hb
            · exact absurd hit (by simp)
        · show (if it.indent + 1 ≤ prevSiblingIndent cur f + 1
              then ((cur.modify (setIndentB (it.indent + 1)) f : List Block), true)
              else ((cur : List Block), b)).2 = true ↔ _
          split
          · next hcond =>
            constructor
            · intro _; exact Or.inr ⟨it, rfl, hcond⟩
            · intro _; rfl
          · next hcond =>
            constructor
            · intro hb; exact Or.inl hb
            · rintro (hb | ⟨it', hit', hc'⟩)
              · exact hb
              · simp only [Option.some.injEq, Block.item.injEq] at hit'
                subst hit'
                exact absurd hc' hcond
        · constructor
          · intro hb; exact Or.inl hb
          · rintro (hb | ⟨it, hit, _⟩)
            · exact hb
            · exact absurd hit (by simp)
      rw [D, hflagf]
      constructor
      · rintro ((hb | ⟨it, hit, hc⟩) | ⟨i, it, h1, h2, hit, hc⟩)
        · exact Or.inl hb
        · exact Or.inr ⟨f, it, Nat.le_refl f, by omega, hit, by rw [hprevf]; exact hc⟩
        · exact Or.inr ⟨i, it, by omega, by omega, hit, hc⟩
      · rintro (hb | ⟨i, it, h1, h2, hit, hc⟩)
        · exact Or.inl (Or.inl hb)
        · rcases Nat.eq_or_lt_of_le h1 with rfl | hlt
          · exact Or.inl (Or.inr ⟨it, hit, by rw [← hprevf]; exact hc⟩)
          · exact Or.inr ⟨i, it, hlt, by omega, hit, hc⟩

/-- **C4.** In `indentFlatListItem`, for every list item node intersecting the
(single-range) selection, the item's indent is increased by exactly 1 iff the
new indent is at most `prevSiblingIndent + 1`, where `prevSiblingIndent` is
the indent of the immediately preceding sibling as already modified by
earlier changes of the same invocation (`-1` when there is none or it is not
a list item); items failing the test — and all other blocks — are left
unchanged, and the command returns `true` iff at least one item changed.
Since earlier positions are final once visited, "as already modified" is
expressed by reading the preceding sibling in the *result* document. -/
theorem claim_C4 (doc : List Block) (f t : Nat) :
    (∀ (i : Nat) (it : Item), doc[i]? = some (.item it) →
        (indentFlatListItem doc [(f, t)]).1[i]? =
          some (.item (if f ≤ i ∧ i ≤ t ∧
              it.indent + 1 ≤ prevSiblingIndent (indentFlatListItem doc [(f, t)]).1 i + 1
            then { it with indent := it.indent + 1 } else it))) ∧
    (∀ (i : Nat), (∀ (it : Item), doc[i]? ≠ some (.item it)) →
        (indentFlatListItem doc [(f, t)]).1[i]? = doc[i]?) ∧
    ((indentFlatListItem doc [(f, t)]).2 = true ↔
      ∃ (i : Nat) (it : Item), doc[i]? = some (.item it) ∧ f ≤ i ∧ i ≤ t ∧
        it.indent + 1 ≤ prevSiblingIndent (indentFlatListItem doc [(f, t)]).1 i + 1) := by
  obtain ⟨A, B, C, C2, D⟩ := indentGo doc (t + 1 - f) f doc false (fun _ _ => rfl)
  have hfold : indentFlatListItem doc [(f, t)] =
      (List.range' f (t + 1 - f)).foldl (indentStep doc) (doc, false) := rfl
  rw [hfold]
  refine ⟨?_, ?_, ?_⟩
  · intro i it hitem
    by_cases hin : f ≤ i ∧ i ≤ t
    · have hC := C i it hin.1 (by omega) hitem
      rw [hC]
      by_cases hP : it.indent + 1 ≤
          prevSiblingIndent ((List.range' f (t + 1 - f)).foldl (indentStep doc) (doc, false)).1 i + 1
      · rw [if_pos hP, if_pos ⟨hin.1, hin.2, hP⟩]
      · rw [if_neg hP, if_neg (fun hc => hP hc.2.2)]
    · rw [if_neg (fun hc => hin ⟨hc.1, hc.2.1⟩)]
      rcases Nat.lt_or_ge i f with hlt | hge
      · rw [A i hlt]; exact hitem
      · rw [B i (by omega)]; exact hitem
  · intro i hnot
    rcases Nat.lt_or_ge i f with hlt | hge
    · exact A i hlt
    · rcases Nat.lt_or_ge i (f + (t + 1 - f)) with hlt2 | hge2
      · exact C2 i hge hlt2 hnot
      · exact B i hge2
  · rw [D]
    constructor
    · rintro (hb | ⟨i, it, h1, h2, hit, hc⟩)
      · exact absurd hb (by simp)
      · exact ⟨i, it, hit, h1, by omega, hc⟩
    · rintro ⟨i, it, hit, h1, h2, hc⟩
      exact Or.inr ⟨i, it, h1, by omega, hit, hc⟩

/-- Witness for C4 at a concrete input: in the document `[item 0, item 0]`,
indenting the second item (selected alone) yields indent 1. -/
theorem claim_C4_witness :
    (indentFlatListItem [uItem 0, uItem 0] [(1, 1)]).1[1]? = some (uItem 1) := by
  have h := (claim_C4 [uItem 0, uItem 0] 1 1).1 1 ⟨.unordered, 0, 1, false, false, 1⟩ (by decide)
  rw [if_pos (by decide)] at h
  exact h

/-! ### Indent preserves the staircase invariant -/

/-- Pointwise relation between the original document and an intermediate
state of `indentFlatListItem`: shapes agree, and every item's indent is
either its original one or its original one plus 1. -/
def indentApproxRel : Option Block → Option Block → Prop
  | some (.item a), some (.item b) => b = a ∨ b = { a with indent := a.indent + 1 }
  | some .other, some .other => True
  | none, none => True
  | _, _ => False

theorem indentApproxRel_refl (o : Option Block) : indentApproxRel o o := by
  rcases o with _ | (a | _)
  · trivial
  · exact Or.inl rfl
  · trivial

theorem indentStep_staircase (orig : List Block) (st : List Block × Bool) (i : Nat)
    (happrox : ∀ j : Nat, indentApproxRel orig[j]? st.1[j]?) (hstair : Staircase st.1) :
    (∀ j : Nat, indentApproxRel orig[j]? (indentStep orig st i).1[j]?) ∧
      Staircase (indentStep orig st i).1 := by
  unfold indentStep
  rcases h : orig[i]? with _ | (it | _)
  · exact ⟨happrox, hstair⟩
  · show (∀ j : Nat, indentApproxRel orig[j]?
        (if it.indent + 1 ≤ prevSiblingIndent st.1 i + 1
         then ((st.1.modify (setIndentB (it.indent + 1)) i : List Block), true)
         else st).1[j]?) ∧
      Staircase (if it.indent + 1 ≤ prevSiblingIndent st.1 i + 1
         then ((st.1.modify (setIndentB (it.indent + 1)) i : List Block), true)
         else st).1
    split
    · next hcond =>
      -- the staged change: item i's indent becomes its original indent + 1
      have hi := happrox i
      rw [h] at hi
      rcases hsti : st.1[i]? with _ | (b | _) <;> rw [hsti] at hi
      · exact absurd hi (by simp [indentApproxRel])
      case some.item =>
        have hbit : { b with indent := it.indent + 1 } = { it with indent := it.indent + 1 } := by
          rcases hi with rfl | rfl <;> rfl
        have hget : ∀ j, (st.1.modify (setIndentB (it.indent + 1)) i)[j]? =
            if i = j then some (.item { it with indent := it.indent + 1 }) else st.1[j]? := by
          intro j
          rw [List.getElem?_modify]
          by_cases hij : i = j
          · subst hij
            rw [if_pos rfl, hsti]
            simp [setIndentB, hbit]
          · rw [if_neg hij]
            rcases st.1[j]? with _ | c <;> simp [hij]
        constructor
        · intro j
          show indentApproxRel orig[j]? (st.1.modify (setIndentB (it.indent + 1)) i)[j]?
          rw [hget j]
          by_cases hij : i = j
          · subst hij
            rw [if_pos rfl, h]
            exact Or.inr rfl
          · rw [if_neg hij]
            exact happrox j
        · -- staircase is preserved by a successful indent step
          intro j
          show stairRelO (st.1.modify (setIndentB (it.indent + 1)) i)[j]?
              (st.1.modify (setIndentB (it.indent + 1)) i)[j + 1]?
          rw [hget j, hget (j + 1)]
          by_cases hj1 : i = j + 1
          · -- pair (j, j+1) with the change at j+1: exactly the staged check
            rw [if_pos hj1, if_neg (by omega)]
            rcases hj : st.1[j]? with _ | (p | _)
            · trivial
            · have hprev : prevSiblingIndent st.1 i = p.indent := by
                rw [hj1]
                simp [prevSiblingIndent, hj]
              show it.indent + 1 ≤ p.indent + 1
              rw [hprev] at hcond
              exact hcond
            · trivial
          · by_cases hj0 : i = j
            · -- pair (j, j+1) with the change at j: the changed indent only grew
              rw [if_pos hj0, if_neg hj1]
              rcases hq : st.1[j + 1]? with _ | (q | _)
              · trivial
              · have hs := hstair j
                have hbj : st.1[j]? = some (.item b) := by rw [← hj0]; exact hsti
                rw [hbj, hq] at hs
                have hs' : q.indent ≤ b.indent + 1 := hs
                have hb : b.indent ≤ it.indent + 1 := by
                  rcases hi with rfl | rfl
                  · omega
                  · show it.indent + 1 ≤ it.indent + 1
                    omega
                show q.indent ≤ it.indent + 1 + 1
                omega
              · trivial
            · rw [if_neg hj0, if_neg hj1]
              exact hstair j
      · exact absurd hi (by simp [indentApproxRel])
    · exact ⟨happrox, hstair⟩
  · exact ⟨happrox, hstair⟩

theorem foldl_preserves {α : Type _} {β : Type _} {P : α → Prop} {f : α → β → α}
    (hf : ∀ a b, P a → P (f a b)) : ∀ (l : List β) (a : α), P a → P (l.foldl f a) := by
  intro l
  induction l with
  | nil => intro a ha; exact ha
  | cons x xs ih => intro a ha; exact ih (f a x) (hf a x ha)

/-- `indentFlatListItem` preserves the staircase invariant, for any list of
selection ranges: every staged change passes the `newIndent ≤
prevSiblingIndent + 1` check against the transaction document, and indents
only ever grow by one, so no adjacent pair is ever broken. -/
theorem indent_staircase (doc : List Block) (ranges : List (Nat × Nat))
    (h : Staircase doc) : Staircase (indentFlatListItem doc ranges).1 := by
  have step : ∀ (a : List Block × Bool) (r : Nat × Nat),
      ((∀ j : Nat, indentApproxRel doc[j]? a.1[j]?) ∧ Staircase a.1) →
      ((∀ j : Nat, indentApproxRel doc[j]? ((rangeIdxs r).foldl (indentStep doc) a).1[j]?) ∧
        Staircase ((rangeIdxs r).foldl (indentStep doc) a).1) := by
    intro a r ha
    exact @foldl_preserves _ _
      (fun s => (∀ j : Nat, indentApproxRel doc[j]? s.1[j]?) ∧ Staircase s.1) _
      (fun a' i ha' => indentStep_staircase doc a' i ha'.1 ha'.2) (rangeIdxs r) a ha
  exact (@foldl_preserves _ _
      (fun s => (∀ j : Nat, indentApproxRel doc[j]? s.1[j]?) ∧ Staircase s.1) _
      step ranges (doc, false) ⟨fun j => indentApproxRel_refl _, h⟩).2

/-! ## The Dedent command

`dedentFlatListItem` (`FlatListCore.addCommands` in `src/extension-ordered.ts`,
lines 328–384).  Phase 1 visits every flat list node in the selection: items
with positive indent are decremented, items at indent ≤ 0 are converted to a
paragraph when `canConvert` is set, and `lastDedented` records the index and
*original* indent of the last flat list node visited while `applicable` was
already true (changed or not — the code guards this update only with the
running `applicable` flag).  Phase 2 ("cascade") then decrements every
subsequent sibling after `lastDedented` whose indent strictly exceeds that
recorded original indent, stopping at the first that does not. -/

/-- The cascade's decrement: `setNodeAttribute(pos, "indent", indent - 1)`
with `indent` read from the transaction document. -/
def decIndentB : Block → Block
  | .item it => .item { it with indent := it.indent - 1 }
  | .other => .other

/-- State of phase 1 of `dedentFlatListItem`. -/
structure DedentSt where
  blocks : List Block
  applicable : Bool
  lastD : Option (Nat × Int)
deriving DecidableEq

/-- One visit of `dedentFlatListItem`'s `nodesBetween` callback at index `i`
(the item's indent is read from the original document, as the code reads
`node.attrs` from `state.doc`). -/
def dedentStep (orig : List Block) (canConvert : Bool) (st : DedentSt) (i : Nat) : DedentSt :=
  match orig[i]? with
  | some (.item it) =>
      let bl :=
        if 0 < it.indent then (st.blocks.modify (setIndentB (it.indent - 1)) i, true)
        else if canConvert then (st.blocks.set i .other, true)
        else (st.blocks, st.applicable)
      { blocks := bl.1, applicable := bl.2,
        lastD := if bl.2 then some (i, it.indent) else st.lastD }
  | _ => st

/-- The cascade loop: starting at index `j`, decrement while the current
sibling is a flat list item with indent strictly above `old`.  `fuel` bounds
the walk; it is instantiated with the document length, which suffices because
the walk also stops at the end of the sibling list. -/
def dedentCascade (old : Int) : List Block → Nat → Nat → List Block
  | blocks, _, 0 => blocks
  | blocks, j, fuel + 1 =>
    match blocks[j]? with
    | some (.item it) =>
        if old < it.indent then dedentCascade old (blocks.modify decIndentB j) (j + 1) fuel
        else blocks
    | _ => blocks

/-- `dedentFlatListItem`: phase 1 over the selection ranges, then the cascade
from `lastDedented`; the second component is the command's return value.  The
`none` fallback of the match is unreachable (`lastDedented!` in the code):
`applicable` forces `lastD` to be set. -/
def dedentFlatListItem (doc : List Block) (ranges : List (Nat × Nat)) (canConvert : Bool) :
    List Block × Bool :=
  let st := ranges.foldl (fun st r => (rangeIdxs r).foldl (dedentStep doc canConvert) st)
      ⟨doc, false, none⟩
  if st.applicable then
    match st.lastD with
    | some (m, old) => (dedentCascade old st.blocks (m + 1) st.blocks.length, true)
    | none => (st.blocks, true)
  else (doc, false)

/-! ### Characterization of Dedent on a single selection range -/

/-- The effect of phase 1 on one selected block. -/
def dedentOne (canConvert : Bool) : Block → Block
  | .item it =>
      if 0 < it.indent then .item { it with indent := it.indent - 1 }
      else if canConvert then .other
      else .item it
  | .other => .other

/-- Whether a selected block makes the Dedent command applicable. -/
def dedentQualifiesB (canConvert : Bool) : Option Block → Bool
  | some (.item it) => decide (0 < it.indent) || canConvert
  | _ => false

/-- Whether an optional block is a flat list item. -/
def isItemO : Option Block → Bool
  | some (.item _) => true
  | _ => false

/-- The largest index of a flat list item among indices `[f, f+n)`. -/
def maxListIdx (orig : List Block) : Nat → Nat → Option Nat
  | _, 0 => none
  | f, n + 1 =>
    match maxListIdx orig (f + 1) n with
    | some m => some m
    | none => if isItemO orig[f]? then some f else none

/-- Whether some index in `[f, f+n)` holds a qualifying block. -/
def anyQual (orig : List Block) (canConvert : Bool) : Nat → Nat → Bool
  | _, 0 => false
  | f, n + 1 => dedentQualifiesB canConvert orig[f]? || anyQual orig canConvert (f + 1) n

/-- The indent attribute of the item at index `m` (0 when not an item; only
used at item indices). -/
def itemIndentAt (orig : List Block) (m : Nat) : Int :=
  match orig[m]? with
  | some (.item it) => it.indent
  | _ => 0

theorem qual_isItemO (canConvert : Bool) (o : Option Block)
    (h : dedentQualifiesB canConvert o = true) : isItemO o = true := by
  rcases o with _ | (it | _)
  · simp [dedentQualifiesB] at h
  · rfl
  · simp [dedentQualifiesB] at h

theorem anyQual_exists (orig : List Block) (canConvert : Bool) :
    ∀ n f, anyQual orig canConvert f n = true →
      ∃ k, f ≤ k ∧ k < f + n ∧ dedentQualifiesB canConvert orig[k]? = true := by
  intro n
  induction n with
  | zero => intro f h; simp [anyQual] at h
  | succ n ih =>
    intro f h
    simp only [anyQual, Bool.or_eq_true] at h
    rcases h with hq | hrest
    · exact ⟨f, Nat.le_refl f, by omega, hq⟩
    · obtain ⟨k, hk1, hk2, hk3⟩ := ih (f + 1) hrest
      exact ⟨k, by omega, by omega, hk3⟩

theorem maxListIdx_none (orig : List Block) :
    ∀ n f, maxListIdx orig f n = none →
      ∀ k, f ≤ k → k < f + n → isItemO orig[k]? = false := by
  intro n
  induction n with
  | zero => intro f _ k h1 h2; omega
  | succ n ih =>
    intro f h k h1 h2
    unfold maxListIdx at h
    rcases hrest : maxListIdx orig (f + 1) n with _ | m
    · rcases hf : isItemO orig[f]? with _ | _
      · rcases Nat.eq_or_lt_of_le h1 with rfl | hlt
        · exact hf
        · exact ih (f + 1) hrest k (by omega) (by omega)
      · simp [hrest, hf] at h
    · simp [hrest] at h

theorem maxListIdx_spec (orig : List Block) :
    ∀ n f m, maxListIdx orig f n = some m →
      (f ≤ m ∧ m < f + n ∧ isItemO orig[m]? = true ∧
        ∀ k, m < k → k < f + n → isItemO orig[k]? = false) := by
  intro n
  induction n with
  | zero => intro f m h; simp [maxListIdx] at h
  | succ n ih =>
    intro f m h
    unfold maxListIdx at h
    rcases hrest : maxListIdx orig (f + 1) n with _ | m'
    · rcases hf : isItemO orig[f]? with _ | _
      · simp [hrest, hf] at h
      · simp [hrest, hf] at h
        subst h
        refine ⟨Nat.le_refl f, by omega, hf, ?_⟩
        intro k hk1 hk2
        exact maxListIdx_none orig n (f + 1) hrest k (by omega) (by omega)
    · simp only [hrest, Option.some.injEq] at h
      subst h
      obtain ⟨h1, h2, h3, h4⟩ := ih (f + 1) m' hrest
      refine ⟨by omega, by omega, h3, ?_⟩
      intro k hk1 hk2
      exact h4 k hk1 (by omega)

theorem anyQual_isSome (orig : List Block) (canConvert : Bool) (n f : Nat)
    (h : anyQual orig canConvert f n = true) : (maxListIdx orig f n).isSome := by
  rcases hmax : maxListIdx orig f n with _ | m
  · obtain ⟨k, hk1, hk2, hk3⟩ := anyQual_exists orig canConvert n f h
    have hk := maxListIdx_none orig n f hmax k hk1 hk2
    rw [qual_isItemO canConvert _ hk3] at hk
    simp at hk
  · rfl

theorem dedentStep_length (orig : List Block) (canConvert : Bool) (st : DedentSt) (i : Nat) :
    (dedentStep orig canConvert st i).blocks.length = st.blocks.length := by
  unfold dedentStep
  rcases h : orig[i]? with _ | (it | _)
  · rfl
  · by_cases h1 : 0 < it.indent
    · simp [h1]
    · by_cases h2 : canConvert = true
      · simp [h1, h2]
      · simp [h1, h2]
  · rfl

theorem dedentStep_getElem?_ne (orig : List Block) (canConvert : Bool) (st : DedentSt)
    (i j : Nat) (hij : i ≠ j) :
    (dedentStep orig canConvert st i).blocks[j]? = st.blocks[j]? := by
  unfold dedentStep
  rcases h : orig[i]? with _ | (it | _)
  · rfl
  · by_cases h1 : 0 < it.indent
    · simp [h1, List.getElem?_modify, hij]
    · by_cases h2 : canConvert = true
      · simp [h1, h2, List.getElem?_set, hij]
      · simp [h1, h2]
  · rfl

theorem dedentStep_getElem?_self (orig : List Block) (canConvert : Bool) (st : DedentSt)
    (i : Nat) (hagree : st.blocks[i]? = orig[i]?) :
    (dedentStep orig canConvert st i).blocks[i]? = orig[i]?.map (dedentOne canConvert) := by
  unfold dedentStep
  rcases h : orig[i]? with _ | (it | _)
  · rw [h] at hagree
    simpa using hagree
  · rw [h] at hagree
    by_cases h1 : 0 < it.indent
    · simp [h1, List.getElem?_modify, hagree, setIndentB, dedentOne]
    · by_cases h2 : canConvert = true
      · have hlen : i < st.blocks.length := (List.getElem?_eq_some_iff.mp hagree).1
        simp [h1, h2, List.getElem?_set, hlen, dedentOne]
      · simp [h1, h2, hagree, dedentOne]
  · rw [h] at hagree
    simpa [dedentOne] using hagree

theorem dedentStep_applicable (orig : List Block) (canConvert : Bool) (st : DedentSt) (i : Nat) :
    (dedentStep orig canConvert st i).applicable =
      (st.applicable || dedentQualifiesB canConvert orig[i]?) := by
  unfold dedentStep
  rcases h : orig[i]? with _ | (it | _)
  · simp [dedentQualifiesB]
  · by_cases h1 : 0 < it.indent
    · simp [h1, dedentQualifiesB]
    · by_cases h2 : canConvert = true
      · simp [h1, h2, dedentQualifiesB]
      · simp [h1, h2, dedentQualifiesB]
  · simp [dedentQualifiesB]

theorem dedentStep_lastD (orig : List Block) (canConvert : Bool) (st : DedentSt) (i : Nat) :
    (dedentStep orig canConvert st i).lastD =
      if isItemO orig[i]? = true then
        (if (st.applicable || dedentQualifiesB canConvert orig[i]?) = true
         then some (i, itemIndentAt orig i) else st.lastD)
      else st.lastD := by
  unfold dedentStep
  rcases h : orig[i]? with _ | (it | _)
  · simp [isItemO]
  · have hind : itemIndentAt orig i = it.indent := by simp [itemIndentAt, h]
    by_cases h1 : 0 < it.indent
    · simp [h1, isItemO, dedentQualifiesB, hind]
    · by_cases h2 : canConvert = true
      · simp [h1, h2, isItemO, dedentQualifiesB, hind]
      · simp [h1, h2, isItemO, dedentQualifiesB, hind]
  · simp [isItemO]

/-- The workhorse induction for the single-range behavior of phase 1 of
Dedent: the resulting document pointwise, the `applicable` flag, and
`lastDedented`. -/
theorem dedentGo (orig : List Block) (canConvert : Bool) (n : Nat) :
    ∀ (f : Nat) (cur : List Block) (b : Bool) (L : Option (Nat × Int)),
      (∀ j, f ≤ j → cur[j]? = orig[j]?) →
      (((List.range' f n).foldl (dedentStep orig canConvert) ⟨cur, b, L⟩).blocks.length
          = cur.length) ∧
      (∀ j, j < f →
        ((List.range' f n).foldl (dedentStep orig canConvert) ⟨cur, b, L⟩).blocks[j]?
          = cur[j]?) ∧
      (∀ j, f + n ≤ j →
        ((List.range' f n).foldl (dedentStep orig canConvert) ⟨cur, b, L⟩).blocks[j]?
          = cur[j]?) ∧
      (∀ j, f ≤ j → j < f + n →
        ((List.range' f n).foldl (dedentStep orig canConvert) ⟨cur, b, L⟩).blocks[j]?
          = orig[j]?.map (dedentOne canConvert)) ∧
      (((List.range' f n).foldl (dedentStep orig canConvert) ⟨cur, b, L⟩).applicable
          = (b || anyQual orig canConvert f n)) ∧
      (((List.range' f n).foldl (dedentStep orig canConvert) ⟨cur, b, L⟩).lastD
          = if (b || anyQual orig canConvert f n) = true then
              (match maxListIdx orig f n with
               | some m => some (m, itemIndentAt orig m)
               | none => L)
            else L) := by
  induction n with
  | zero =>
    intro f cur b L hagree
    refine ⟨rfl, fun j _ => rfl, fun j _ => rfl, fun j h1 h2 => by omega, ?_, ?_⟩
    · simp [anyQual]
    · rcases b with _ | _ <;> simp [anyQual, maxListIdx]
  | succ n ih =>
    intro f cur b L hagree
    rw [List.range'_succ, List.foldl_cons]
    have hst : dedentStep orig canConvert ⟨cur, b, L⟩ f =
        ⟨(dedentStep orig canConvert ⟨cur, b, L⟩ f).blocks,
         (dedentStep orig canConvert ⟨cur, b, L⟩ f).applicable,
         (dedentStep orig canConvert ⟨cur, b, L⟩ f).lastD⟩ := rfl
    rw [hst]
    have hagree' : ∀ j, f + 1 ≤ j →
        (dedentStep orig canConvert ⟨cur, b, L⟩ f).blocks[j]? = orig[j]? := by
      intro j hj
      rw [dedentStep_getElem?_ne orig canConvert _ f j (by omega)]
      exact hagree j (by omega)
    obtain ⟨Hlen, Hlow, Hhigh, Hmid, Happ, Hlast⟩ :=
      ih (f + 1) (dedentStep orig canConvert ⟨cur, b, L⟩ f).blocks
        (dedentStep orig canConvert ⟨cur, b, L⟩ f).applicable
        (dedentStep orig canConvert ⟨cur, b, L⟩ f).lastD hagree'
    have hstep_app := dedentStep_applicable orig canConvert ⟨cur, b, L⟩ f
    have hstep_last := dedentStep_lastD orig canConvert ⟨cur, b, L⟩ f
    have hanyq : anyQual orig canConvert f (n + 1)
        = (dedentQualifiesB canConvert orig[f]? || anyQual orig canConvert (f + 1) n) := rfl
    have hmaxs : maxListIdx orig f (n + 1)
        = (match maxListIdx orig (f + 1) n with
           | some m => some m
           | none => if isItemO orig[f]? then some f else none) := rfl
    refine ⟨?_, ?_, ?_, ?_, ?_, ?_⟩
    · rw [Hlen, dedentStep_length]
    · intro j hj
      rw [Hlow j (by omega), dedentStep_getElem?_ne orig canConvert _ f j (by omega)]
    · intro j hj
      rw [Hhigh j (by omega), dedentStep_getElem?_ne orig canConvert _ f j (by omega)]
    · intro j h1 h2
      rcases Nat.eq_or_lt_of_le h1 with rfl | hlt
      · rw [Hlow f (by omega)]
        exact dedentStep_getElem?_self orig canConvert _ f (hagree f (Nat.le_refl f))
      · exact Hmid j hlt (by omega)
    · rw [Happ, hstep_app, hanyq]
      simp [Bool.or_assoc]
    · rw [Hlast, hstep_app, hstep_last, hanyq, hmaxs]
      rcases hM : maxListIdx orig (f + 1) n with _ | m
      · -- no later list item: the range's last list node, if any, is `f` itself
        have hR : anyQual orig canConvert (f + 1) n = false := by
          rcases hr : anyQual orig canConvert (f + 1) n with _ | _
          · rfl
          · have := anyQual_isSome orig canConvert n (f + 1) hr
            rw [hM] at this
            simp at this
        rcases hI : isItemO orig[f]? with _ | _
        · -- `f` not a list item: nothing changes
          have hQ : dedentQualifiesB canConvert orig[f]? = false := by
            rcases hq : dedentQualifiesB canConvert orig[f]? with _ | _
            · rfl
            · rw [qual_isItemO canConvert _ hq] at hI
              simp at hI
          rcases b with _ | _ <;> simp [hR, hQ, hI]
        · -- `f` is a list item: `lastDedented` is `(f, its indent)` iff applicable
          rcases b with _ | _ <;>
            rcases hq : dedentQualifiesB canConvert orig[f]? with _ | _ <;>
              simp [hR, hI, hq]
      · -- a later list item exists and wins
        rcases b with _ | _ <;>
          rcases hq : dedentQualifiesB canConvert orig[f]? with _ | _ <;>
            rcases hr : anyQual orig canConvert (f + 1) n with _ | _ <;>
              rcases hI : isItemO orig[f]? with _ | _ <;>
                simp [hq, hr, hI]

theorem getElem?_modify_ne {l : List Block} {g : Block → Block} {i j : Nat} (h : i ≠ j) :
    (l.modify g i)[j]? = l[j]? := by
  rw [List.getElem?_modify]
  rcases l[j]? with _ | c <;> simp [h]

theorem getElem?_modify_self {l : List Block} {g : Block → Block} {i : Nat} :
    (l.modify g i)[i]? = l[i]?.map g := by
  rw [List.getElem?_modify]
  rcases l[i]? with _ | c <;> simp

/-- A position the cascade walk passes through: a flat list item with indent
strictly above `old`. -/
def cascadeHit (old : Int) (blocks : List Block) (k : Nat) : Prop :=
  isItemO blocks[k]? = true ∧ old < itemIndentAt blocks k

instance (old : Int) (blocks : List Block) (k : Nat) : Decidable (cascadeHit old blocks k) := by
  unfold cascadeHit
  exact inferInstance

theorem cascadeHit_iff (old : Int) (blocks : List Block) (k : Nat) :
    cascadeHit old blocks k ↔ ∃ it, blocks[k]? = some (.item it) ∧ old < it.indent := by
  unfold cascadeHit isItemO itemIndentAt
  rcases blocks[k]? with _ | (it | _) <;> simp

/-- Pointwise description of the cascade: position `j` is decremented exactly
when the walk starting at `s` reaches it, i.e. when every position in `[s, j]`
is a flat list item with indent strictly above `old`. -/
theorem dedentCascade_getElem (old : Int) (fuel : Nat) :
    ∀ (blocks : List Block) (s : Nat), blocks.length ≤ s + fuel →
      ∀ j : Nat, (dedentCascade old blocks s fuel)[j]? =
        if s ≤ j ∧ (∀ k, k ≤ j → s ≤ k → cascadeHit old blocks k)
        then blocks[j]?.map decIndentB else blocks[j]? := by
  induction fuel with
  | zero =>
    intro blocks s hlen j
    rw [if_neg]
    · rfl
    · rintro ⟨hsj, hall⟩
      obtain ⟨it, hit, _⟩ := (cascadeHit_iff old blocks s).mp (hall s hsj (Nat.le_refl s))
      have := (List.getElem?_eq_some_iff.mp hit).1
      omega
  | succ fuel ih =>
    intro blocks s hlen j
    unfold dedentCascade
    rcases hs : blocks[s]? with _ | (it | _)
    · rw [if_neg]
      rintro ⟨hsj, hall⟩
      obtain ⟨it, hit, _⟩ := (cascadeHit_iff old blocks s).mp (hall s hsj (Nat.le_refl s))
      rw [hs] at hit
      cases hit
    · show (if old < it.indent
          then dedentCascade old (blocks.modify decIndentB s) (s + 1) fuel
          else blocks)[j]? = _
      by_cases hcond : old < it.indent
      · rw [if_pos hcond]
        have hlen' : (blocks.modify decIndentB s).length ≤ (s + 1) + fuel := by
          rw [List.length_modify]
          omega
        rw [ih (blocks.modify decIndentB s) (s + 1) hlen' j]
        rcases Nat.lt_trichotomy j s with hj | hj | hj
        · rw [if_neg (fun h => absurd h.1 (by omega)),
            if_neg (fun h => absurd h.1 (by omega)), getElem?_modify_ne (by omega)]
        · subst hj
          have hall : ∀ k, k ≤ j → j ≤ k → cascadeHit old blocks k := by
            intro k hk1 hk2
            have hkj : k = j := by omega
            subst hkj
            exact (cascadeHit_iff old blocks k).mpr ⟨it, hs, hcond⟩
          rw [if_neg (fun h => absurd h.1 (by omega)), getElem?_modify_self,
            if_pos ⟨Nat.le_refl j, hall⟩]
        · have hiff : (s + 1 ≤ j ∧ ∀ k, k ≤ j → s + 1 ≤ k →
              cascadeHit old (blocks.modify decIndentB s) k) ↔
              (s ≤ j ∧ ∀ k, k ≤ j → s ≤ k → cascadeHit old blocks k) := by
            have hsame : ∀ k, s + 1 ≤ k →
                (cascadeHit old (blocks.modify decIndentB s) k ↔ cascadeHit old blocks k) := by
              intro k hk
              unfold cascadeHit itemIndentAt
              rw [getElem?_modify_ne (by omega)]
            constructor
            · rintro ⟨h1, h2⟩
              refine ⟨by omega, ?_⟩
              intro k hk1 hk2
              rcases Nat.eq_or_lt_of_le hk2 with rfl | hk
              · exact (cascadeHit_iff old blocks s).mpr ⟨it, hs, hcond⟩
              · exact (hsame k (by omega)).mp (h2 k hk1 (by omega))
            · rintro ⟨h1, h2⟩
              refine ⟨by omega, ?_⟩
              intro k hk1 hk2
              exact (hsame k hk2).mpr (h2 k hk1 (by omega))
          by_cases hC : s ≤ j ∧ ∀ k, k ≤ j → s ≤ k → cascadeHit old blocks k
          · rw [if_pos (hiff.mpr hC), if_pos hC, getElem?_modify_ne (by omega)]
          · rw [if_neg (fun h => hC (hiff.mp h)), if_neg hC, getElem?_modify_ne (by omega)]
      · rw [if_neg hcond, if_neg]
        rintro ⟨hsj, hall⟩
        obtain ⟨it', hit', hlt'⟩ := (cascadeHit_iff old blocks s).mp (hall s hsj (Nat.le_refl s))
        rw [hs] at hit'
        simp only [Option.some.injEq, Block.item.injEq] at hit'
        subst hit'
        exact hcond hlt'
    · rw [if_neg]
      rintro ⟨hsj, hall⟩
      obtain ⟨it, hit, _⟩ := (cascadeHit_iff old blocks s).mp (hall s hsj (Nat.le_refl s))
      rw [hs] at hit
      cases hit

theorem map_dedentOne_of_not_item {cc : Bool} {o : Option Block}
    (h : isItemO o = false) : o.map (dedentOne cc) = o := by
  rcases o with _ | (it | _)
  · rfl
  · simp [isItemO] at h
  · rfl

/-- Full pointwise description of `dedentFlatListItem` on a single selection
range `[f, t]`, when some selected block qualifies.  `m` is the index of the
last flat list item in the selection (which the code records as
`lastDedented`, whether or not that item itself changed); the cascade then
decrements exactly the maximal run of items after `m` whose indent strictly
exceeds item `m`'s original indent. -/
theorem dedent_getElem (doc : List Block) (f t : Nat) (cc : Bool) (m : Nat)
    (hm : maxListIdx doc f (t + 1 - f) = some m)
    (hqual : anyQual doc cc f (t + 1 - f) = true) :
    (dedentFlatListItem doc [(f, t)] cc).2 = true ∧
    ∀ j : Nat, (dedentFlatListItem doc [(f, t)] cc).1[j]? =
      if f ≤ j ∧ j ≤ t then doc[j]?.map (dedentOne cc)
      else if m + 1 ≤ j ∧ (∀ k, k ≤ j → m + 1 ≤ k →
          cascadeHit (itemIndentAt doc m) doc k)
      then doc[j]?.map decIndentB
      else doc[j]? := by
  obtain ⟨Hlen, Hlow, Hhigh, Hmid, Happ, Hlast⟩ :=
    dedentGo doc cc (t + 1 - f) f doc false none (fun _ _ => rfl)
  obtain ⟨hmf, hmt, hmitem, hmmax⟩ := maxListIdx_spec doc (t + 1 - f) f m hm
  have hft : f ≤ t := by omega
  have hfn : f + (t + 1 - f) = t + 1 := by omega
  have happ' : ((List.range' f (t + 1 - f)).foldl (dedentStep doc cc)
      ⟨doc, false, none⟩).applicable = true := by
    rw [Happ, hqual]
    rfl
  have hlast' : ((List.range' f (t + 1 - f)).foldl (dedentStep doc cc)
      ⟨doc, false, none⟩).lastD = some (m, itemIndentAt doc m) := by
    rw [Hlast, hm]
    rw [hqual]
    simp
  -- phase 1 leaves everything after `m` equal to the original document
  have hphase : ∀ k, m + 1 ≤ k → ((List.range' f (t + 1 - f)).foldl (dedentStep doc cc)
      ⟨doc, false, none⟩).blocks[k]? = doc[k]? := by
    intro k hk
    rcases Nat.lt_or_ge k (t + 1) with hk2 | hk2
    · rw [Hmid k (by omega) (by omega)]
      exact map_dedentOne_of_not_item (hmmax k (by omega) (by omega))
    · exact Hhigh k (by omega)
  have hhit : ∀ k, m + 1 ≤ k →
      (cascadeHit (itemIndentAt doc m) ((List.range' f (t + 1 - f)).foldl (dedentStep doc cc)
        ⟨doc, false, none⟩).blocks k ↔ cascadeHit (itemIndentAt doc m) doc k) := by
    intro k hk
    unfold cascadeHit itemIndentAt
    rw [hphase k hk]
  have hres : dedentFlatListItem doc [(f, t)] cc =
      (dedentCascade (itemIndentAt doc m)
        ((List.range' f (t + 1 - f)).foldl (dedentStep doc cc) ⟨doc, false, none⟩).blocks
        (m + 1)
        ((List.range' f (t + 1 - f)).foldl (dedentStep doc cc) ⟨doc, false, none⟩).blocks.length,
       true) := by
    show (let st := (List.range' f (t + 1 - f)).foldl (dedentStep doc cc) ⟨doc, false, none⟩
      if st.applicable then
        match st.lastD with
        | some (m, old) => (dedentCascade old st.blocks (m + 1) st.blocks.length, true)
        | none => (st.blocks, true)
      else (doc, false)) = _
    rw [show (let st := (List.range' f (t + 1 - f)).foldl (dedentStep doc cc) ⟨doc, false, none⟩
      if st.applicable then
        match st.lastD with
        | some (m, old) => (dedentCascade old st.blocks (m + 1) st.blocks.length, true)
        | none => (st.blocks, true)
      else (doc, false)) =
      (if ((List.range' f (t + 1 - f)).foldl (dedentStep doc cc) ⟨doc, false, none⟩).applicable
       then
        match ((List.range' f (t + 1 - f)).foldl (dedentStep doc cc)
            ⟨doc, false, none⟩).lastD with
        | some (m, old) =>
            (dedentCascade old
              ((List.range' f (t + 1 - f)).foldl (dedentStep doc cc) ⟨doc, false, none⟩).blocks
              (m + 1)
              ((List.range' f (t + 1 - f)).foldl (dedentStep doc cc)
                ⟨doc, false, none⟩).blocks.length,
             true)
        | none =>
            (((List.range' f (t + 1 - f)).foldl (dedentStep doc cc) ⟨doc, false, none⟩).blocks,
             true)
       else (doc, false)) from rfl]
    rw [happ', hlast']
    rfl
  constructor
  · rw [hres]
  · intro j
    rw [hres]
    have hcasc := dedentCascade_getElem (itemIndentAt doc m)
      ((List.range' f (t + 1 - f)).foldl (dedentStep doc cc) ⟨doc, false, none⟩).blocks.length
      ((List.range' f (t + 1 - f)).foldl (dedentStep doc cc) ⟨doc, false, none⟩).blocks
      (m + 1) (by omega) j
    show (dedentCascade (itemIndentAt doc m) _ (m + 1) _)[j]? = _
    rw [hcasc]
    rcases Nat.lt_or_ge j f with hjf | hjf
    · -- before the selection: untouched by both phases
      rw [if_neg (fun hc => absurd hc.1 (by omega : ¬m + 1 ≤ j)),
        if_neg (fun hc => absurd hc.1 (by omega : ¬f ≤ j)),
        if_neg (fun hc => absurd hc.1 (by omega : ¬m + 1 ≤ j)), Hlow j hjf]
    · rcases Nat.lt_or_ge j (t + 1) with hjt | hjt
      · -- inside the selection: phase 1's value, untouched by the cascade
        rcases Nat.lt_or_ge m j with hmj | hmj
        · -- a selected position after the last selected list item is not a hit
          have hnot : ¬(m + 1 ≤ j ∧ ∀ k, k ≤ j → m + 1 ≤ k →
              cascadeHit (itemIndentAt doc m)
                ((List.range' f (t + 1 - f)).foldl (dedentStep doc cc)
                  ⟨doc, false, none⟩).blocks k) := by
            rintro ⟨h1, h2⟩
            have := ((hhit j (by omega)).mp (h2 j (Nat.le_refl j) (by omega))).1
            rw [hmmax j hmj (by omega)] at this
            cases this
          rw [if_neg hnot, if_pos ⟨hjf, by omega⟩]
          exact Hmid j hjf (by omega)
        · rw [if_neg (fun hc => absurd hc.1 (by omega : ¬m + 1 ≤ j)),
            if_pos ⟨hjf, by omega⟩]
          exact Hmid j hjf (by omega)
      · -- after the selection: exactly the cascade's effect
        have hphj := hphase j (by omega)
        by_cases hC : m + 1 ≤ j ∧ ∀ k, k ≤ j → m + 1 ≤ k →
            cascadeHit (itemIndentAt doc m) doc k
        · rw [if_pos ⟨hC.1, fun k hk1 hk2 => (hhit k hk2).mpr (hC.2 k hk1 hk2)⟩,
            if_neg (fun hc => absurd hc.2 (by omega : ¬j ≤ t)), if_pos hC, hphj]
        · rw [if_neg (fun hc => hC ⟨hc.1, fun k hk1 hk2 => (hhit k hk2).mp (hc.2 k hk1 hk2)⟩),
            if_neg (fun hc => absurd hc.2 (by omega : ¬j ≤ t)), if_neg hC]
          exact hphj

/-- When no selected block qualifies, Dedent is a no-op returning `false`. -/
theorem dedent_notApplicable (doc : List Block) (f t : Nat) (cc : Bool)
    (happ : anyQual doc cc f (t + 1 - f) = false) :
    dedentFlatListItem doc [(f, t)] cc = (doc, false) := by
  obtain ⟨_, _, _, _, Happ, _⟩ :=
    dedentGo doc cc (t + 1 - f) f doc false none (fun _ _ => rfl)
  show (if ((List.range' f (t + 1 - f)).foldl (dedentStep doc cc)
        ⟨doc, false, none⟩).applicable
      then _ else (doc, false)) = (doc, false)
  rw [Happ, happ]
  rfl

/-- **C3 counterexample.**  The claim ties the cascade to the last item
*changed* in selection order.  In the document with unordered items at indents
`[0, 1, 0, 1]`, dedenting the selection covering items 1 and 2 (0-based) with
`canConvert = false` changes only item 1 (old indent 1); item 2 (indent 0)
does not qualify and is unchanged.  Since item 2's indent (0) does not exceed
item 1's original indent (1), the claim's cascade stops at item 2 and item 3
must keep indent 1.  The code instead records the *unchanged* item 2 as
`lastDedented` and cascades from it, decrementing item 3 to indent 0. -/
theorem claim_C3_counterexample :
    dedentQualifiesB false [uItem 0, uItem 1, uItem 0, uItem 1][1]? = true ∧
    dedentQualifiesB false [uItem 0, uItem 1, uItem 0, uItem 1][2]? = false ∧
    itemIndentAt [uItem 0, uItem 1, uItem 0, uItem 1] 2 ≤
      itemIndentAt [uItem 0, uItem 1, uItem 0, uItem 1] 1 ∧
    (dedentFlatListItem [uItem 0, uItem 1, uItem 0, uItem 1] [(1, 2)] false).1 =
      [uItem 0, uItem 0, uItem 0, uItem 0] ∧
    (dedentFlatListItem [uItem 0, uItem 1, uItem 0, uItem 1] [(1, 2)] false).1[3]? ≠
      [uItem 0, uItem 1, uItem 0, uItem 1][3]? := by
  decide

/-- **C3 (amended).**  In `dedentFlatListItem` (single selection range
`[f, t]`, at least one qualifying item), the cascade is relative to the *last
flat list item in the selection* `m` (recorded as `lastDedented` whether or
not it changed, since the code guards the update only with the running
`applicable` flag) — not the last item changed.  Exactly the subsequent
siblings forming the maximal run after `m` of list items whose indent
strictly exceeds item `m`'s original indent are each decremented by 1; the
run stops at the first sibling that is not such an item.  In particular, for
ordered items with indents `[0, 1, 2, 2]`, dedenting only the second item
yields `[0, 0, 1, 1]`. -/
theorem claim_C3 (doc : List Block) (f t : Nat) (cc : Bool) (m : Nat)
    (hm : maxListIdx doc f (t + 1 - f) = some m)
    (hqual : anyQual doc cc f (t + 1 - f) = true) :
    (∀ j : Nat, m + 1 ≤ j →
      (dedentFlatListItem doc [(f, t)] cc).1[j]? =
        if ∀ k, k ≤ j → m + 1 ≤ k → cascadeHit (itemIndentAt doc m) doc k
        then doc[j]?.map decIndentB
        else doc[j]?) ∧
    (dedentFlatListItem [oItem 0 1, oItem 1 1, oItem 2 1, oItem 2 1] [(1, 1)] false).1 =
      [oItem 0 1, oItem 0 1, oItem 1 1, oItem 1 1] := by
  obtain ⟨hflag, hdesc⟩ := dedent_getElem doc f t cc m hm hqual
  obtain ⟨hmf, hmt, hmitem, hmmax⟩ := maxListIdx_spec doc (t + 1 - f) f m hm
  constructor
  · intro j hj
    rw [hdesc j]
    by_cases hin : f ≤ j ∧ j ≤ t
    · -- a selected position after the last selected list item: not an item,
      -- so neither phase changes it
      rw [if_pos hin, if_neg]
      · exact map_dedentOne_of_not_item (hmmax j (by omega) (by omega))
      · intro hall
        have := (hall j (Nat.le_refl j) hj).1
        rw [hmmax j (by omega) (by omega)] at this
        cases this
    · rw [if_neg hin]
      by_cases hall : ∀ k, k ≤ j → m + 1 ≤ k → cascadeHit (itemIndentAt doc m) doc k
      · rw [if_pos ⟨hj, hall⟩, if_pos hall]
      · rw [if_neg (fun hc => hall hc.2), if_neg hall]
  · decide

/-- Witness for C3 at its concrete input: dedenting only the second of the
ordered items `[0, 1, 2, 2]` cascades item 2 down to indent 1. -/
theorem claim_C3_witness :
    (dedentFlatListItem [oItem 0 1, oItem 1 1, oItem 2 1, oItem 2 1] [(1, 1)] false).1[2]? =
      some (oItem 1 1) := by
  have h := (claim_C3 [oItem 0 1, oItem 1 1, oItem 2 1, oItem 2 1] 1 1 false 1
    (by decide) (by decide)).1 2 (by omega)
  rw [if_pos (by decide)] at h
  rw [h]
  decide

theorem dedentOne_cases (cc : Bool) (a : Item) :
    (dedentOne cc (.item a) = .other ∧ ¬0 < a.indent ∧ cc = true) ∨
    (∃ a', dedentOne cc (.item a) = .item a' ∧
      ((a'.indent = a.indent - 1 ∧ 0 < a.indent) ∨
       (a'.indent = a.indent ∧ ¬0 < a.indent))) := by
  have hred : dedentOne cc (.item a) =
      (if 0 < a.indent then Block.item { a with indent := a.indent - 1 }
       else if cc = true then Block.other else Block.item a) := rfl
  rw [hred]
  by_cases h1 : 0 < a.indent
  · refine Or.inr ⟨{ a with indent := a.indent - 1 }, ?_, Or.inl ⟨rfl, h1⟩⟩
    rw [if_pos h1]
  · by_cases h2 : cc = true
    · refine Or.inl ⟨?_, h1, h2⟩
      rw [if_neg h1, if_pos h2]
    · refine Or.inr ⟨a, ?_, Or.inr ⟨rfl, h1⟩⟩
      rw [if_neg h1, if_neg h2]

theorem stairRelO_other_left (y : Option Block) : stairRelO (some .other) y := by
  rcases y with _ | (b | _) <;> trivial

theorem stairRelO_left_vac {x : Option Block} (hx : isItemO x = false)
    (y : Option Block) : stairRelO x y := by
  rcases x with _ | (a | _)
  · rcases y with _ | (b | _) <;> trivial
  · simp [isItemO] at hx
  · rcases y with _ | (b | _) <;> trivial

theorem stairRelO_right_vac (x : Option Block) {y : Option Block}
    (hy : isItemO y = false) : stairRelO x y := by
  rcases y with _ | (b | _)
  · rcases x with _ | (a | _) <;> trivial
  · simp [isItemO] at hy
  · rcases x with _ | (a | _) <;> trivial

/-- Dedent on a single selection range preserves the staircase invariant. -/
theorem dedent_staircase (doc : List Block) (f t : Nat) (cc : Bool)
    (h : Staircase doc) : Staircase (dedentFlatListItem doc [(f, t)] cc).1 := by
  rcases happ : anyQual doc cc f (t + 1 - f) with _ | _
  · rw [dedent_notApplicable doc f t cc happ]
    exact h
  · have hsome := anyQual_isSome doc cc (t + 1 - f) f happ
    rcases hm : maxListIdx doc f (t + 1 - f) with _ | m
    · rw [hm] at hsome
      simp at hsome
    · obtain ⟨hflag, hdesc⟩ := dedent_getElem doc f t cc m hm happ
      obtain ⟨hmf, hmt, hmitem, hmmax⟩ := maxListIdx_spec doc (t + 1 - f) f m hm
      have hval_eq : ∀ p : Nat, isItemO doc[p]? = false →
          (if f ≤ p ∧ p ≤ t then doc[p]?.map (dedentOne cc)
           else if m + 1 ≤ p ∧ (∀ k, k ≤ p → m + 1 ≤ k →
               cascadeHit (itemIndentAt doc m) doc k)
           then doc[p]?.map decIndentB
           else doc[p]?) = doc[p]? := by
        intro p hp
        rcases hdp : doc[p]? with _ | (x | _)
        · split
          · rfl
          · split
            · rfl
            · rfl
        · rw [hdp] at hp
          simp [isItemO] at hp
        · split
          · rfl
          · split
            · rfl
            · rfl
      intro j
      rw [hdesc j, hdesc (j + 1)]
      rcases hia : isItemO doc[j]? with _ | _
      · rw [hval_eq j hia]
        exact stairRelO_left_vac hia _
      · rcases hib : isItemO doc[j + 1]? with _ | _
        · rw [hval_eq (j + 1) hib]
          exact stairRelO_right_vac _ hib
        · rcases hja : doc[j]? with _ | (a | _)
          · simp [hja, isItemO] at hia
          case some.other => simp [hja, isItemO] at hia
          case some.item =>
            rcases hjb : doc[j + 1]? with _ | (b | _)
            · simp [hjb, isItemO] at hib
            case some.other => simp [hjb, isItemO] at hib
            case some.item =>
              simp only [Option.map_some']
              have hab : b.indent ≤ a.indent + 1 := by
                have hs := h j
                rw [hja, hjb] at hs
                exact hs
              have hIAj : itemIndentAt doc j = a.indent := by simp [itemIndentAt, hja]
              have hIAj1 : itemIndentAt doc (j + 1) = b.indent := by simp [itemIndentAt, hjb]
              have hmt' : m ≤ t := by omega
              by_cases hA1 : f ≤ j ∧ j ≤ t
              · rw [if_pos hA1]
                by_cases hB1 : f ≤ j + 1 ∧ j + 1 ≤ t
                · -- both positions selected: both shrink in step
                  rw [if_pos hB1]
                  rcases dedentOne_cases cc a with ⟨hoa, _, _⟩ | ⟨a', hea, ha'⟩
                  · rw [hoa]
                    exact stairRelO_other_left _
                  · rw [hea]
                    rcases dedentOne_cases cc b with ⟨hob, _, _⟩ | ⟨b', heb, hb'⟩
                    · rw [hob]
                      rcases dedentOne_cases cc a with _ | _ <;>
                        exact stairRelO_right_vac _ (by rfl)
                    · rw [heb]
                      show b'.indent ≤ a'.indent + 1
                      rcases ha' with ⟨e1, e2⟩ | ⟨e1, e2⟩ <;>
                        rcases hb' with ⟨g1, g2⟩ | ⟨g1, g2⟩ <;> omega
                · -- `j` is the last selected position, and it is the last
                  -- selected list item `m`
                  have hjt : j = t := by
                    rcases Nat.lt_or_ge (j + 1) (t + 1) with h' | h'
                    · exact absurd ⟨by omega, by omega⟩ hB1
                    · omega
                  have hjm : j = m := by
                    by_contra hne
                    rcases Nat.lt_or_ge m j with hlt | hge
                    · have := hmmax j (by omega) (by omega)
                      rw [hja] at this
                      simp [isItemO] at this
                    · omega
                  have hO : itemIndentAt doc m = a.indent := by
                    rw [← hjm]
                    exact hIAj
                  by_cases hB2 : m + 1 ≤ j + 1 ∧ ∀ k, k ≤ j + 1 → m + 1 ≤ k →
                      cascadeHit (itemIndentAt doc m) doc k
                  · rw [if_neg hB1, if_pos hB2]
                    -- the next sibling is cascaded: its indent was exactly old+1
                    have hhitb := hB2.2 (j + 1) (Nat.le_refl _) (by omega)
                    have hob : itemIndentAt doc m < b.indent := by
                      have h2 := hhitb.2
                      rwa [hIAj1] at h2
                    rcases dedentOne_cases cc a with ⟨hoa, _, _⟩ | ⟨a', hea, ha'⟩
                    · rw [hoa]
                      exact stairRelO_other_left _
                    · rw [hea]
                      show b.indent - 1 ≤ a'.indent + 1
                      rw [hO] at hob
                      rcases ha' with ⟨e1, e2⟩ | ⟨e1, e2⟩ <;> omega
                  · rw [if_neg hB1, if_neg hB2]
                    -- the next sibling stops the cascade: its indent is ≤ old
                    have hble : b.indent ≤ itemIndentAt doc m := by
                      by_contra hgt
                      apply hB2
                      refine ⟨by omega, ?_⟩
                      intro k hk1 hk2
                      have hkj : k = j + 1 := by omega
                      subst hkj
                      refine ⟨by rw [hjb]; rfl, ?_⟩
                      rw [hIAj1]
                      omega
                    rcases dedentOne_cases cc a with ⟨hoa, _, _⟩ | ⟨a', hea, ha'⟩
                    · rw [hoa]
                      exact stairRelO_other_left _
                    · rw [hea]
                      show b.indent ≤ a'.indent + 1
                      rw [hO] at hble
                      rcases ha' with ⟨e1, e2⟩ | ⟨e1, e2⟩ <;> omega
              · rw [if_neg hA1]
                by_cases hA2 : m + 1 ≤ j ∧ ∀ k, k ≤ j → m + 1 ≤ k →
                    cascadeHit (itemIndentAt doc m) doc k
                · rw [if_pos hA2]
                  have hjt : t < j := by
                    rcases Nat.lt_or_ge t j with h' | h'
                    · exact h'
                    · exact absurd ⟨by omega, h'⟩ hA1
                  by_cases hB1 : f ≤ j + 1 ∧ j + 1 ≤ t
                  · exact absurd hB1.2 (by omega)
                  · rw [if_neg hB1]
                    by_cases hB2 : m + 1 ≤ j + 1 ∧ ∀ k, k ≤ j + 1 → m + 1 ≤ k →
                        cascadeHit (itemIndentAt doc m) doc k
                    · rw [if_pos hB2]
                      show b.indent - 1 ≤ (a.indent - 1) + 1
                      omega
                    · rw [if_neg hB2]
                      -- the run stops right after `j`: `b.indent ≤ old < a.indent`
                      have hhita := hA2.2 j (Nat.le_refl j) hA2.1
                      have hoa : itemIndentAt doc m < a.indent := by
                        have h2 := hhita.2
                        rwa [hIAj] at h2
                      have hble : b.indent ≤ itemIndentAt doc m := by
                        by_contra hgt
                        apply hB2
                        refine ⟨by omega, ?_⟩
                        intro k hk1 hk2
                        rcases Nat.lt_or_ge k (j + 1) with hk | hk
                        · exact hA2.2 k (by omega) hk2
                        · have hkj : k = j + 1 := by omega
                          subst hkj
                          refine ⟨by rw [hjb]; rfl, ?_⟩
                          rw [hIAj1]
                          omega
                      show b.indent ≤ (a.indent - 1) + 1
                      omega
                · rw [if_neg hA2]
                  by_cases hB1 : f ≤ j + 1 ∧ j + 1 ≤ t
                  · rw [if_pos hB1]
                    rcases dedentOne_cases cc b with ⟨hob, _, _⟩ | ⟨b', heb, hb'⟩
                    · rw [hob]
                      exact stairRelO_right_vac _ (by rfl)
                    · rw [heb]
                      show b'.indent ≤ a.indent + 1
                      rcases hb' with ⟨g1, g2⟩ | ⟨g1, g2⟩ <;> omega
                  · by_cases hB2 : m + 1 ≤ j + 1 ∧ ∀ k, k ≤ j + 1 → m + 1 ≤ k →
                        cascadeHit (itemIndentAt doc m) doc k
                    · -- impossible: it would make `j` itself part of the run,
                      -- or force `j = m`, which is inside the selection
                      exfalso
                      rcases Nat.lt_or_ge j (m + 1) with hjm | hjm
                      · have hj_eq : j = m := by omega
                        exact hA1 ⟨by omega, by omega⟩
                      · exact hA2 ⟨hjm, fun k hk1 hk2 => hB2.2 k (by omega) hk2⟩
                    · rw [if_neg hB1, if_neg hB2]
                      exact hab

/-! ## The Paste Normalizer

`transformPasted` (`flatListPastePlugin` in `src/internal/paste-plugin.ts`).
The slice's top-level nodes are massaged: each run of flat list items is
shifted so that its first item lands at the context indent, subsequent items
are clamped into `[0, lastIndent + 1]` with the clamping delta folded into
the run's shift, and the very first node of the slice is skipped (its indent
is discarded on insertion) unless the caret sits at the very start of a
top-level node.  Finally a `_isTempPropped` first node is cleaned up. -/

/-- The per-item clamp of `transformPasted`: `newIndent` reduced to `0` when
negative, to `lastIndent + 1` when above it (the code's two branches). -/
def pasteClamp (lastIndent newIndent : Int) : Int :=
  if newIndent < 0 then 0
  else if lastIndent + 1 < newIndent then lastIndent + 1
  else newIndent

/-- The loop of `transformPasted`, over the slice's top-level nodes.
State: node index `i`, `contextIndent`, `lastIndent`, and the run shift
`delta` (`none` encodes the JS `delta = null`; `delta.getD (contextIndent -
it.indent)` is the JS `if (delta === null) delta = contextIndent -
child.attrs.indent`). -/
def pasteGo (atStart : Bool) : Nat → Int → Int → Option Int → List Block → List Block
  | _, _, _, _, [] => []
  | i, contextIndent, lastIndent, delta, b :: rest =>
    match b with
    | .item it =>
        let d := delta.getD (contextIndent - it.indent)
        if i = 0 ∧ ¬atStart then
          -- first node: it inherits the paste target's indent, leave it alone
          b :: pasteGo atStart (i + 1) contextIndent lastIndent (some d) rest
        else
          .item { it with indent := pasteClamp lastIndent (it.indent + d) } ::
            pasteGo atStart (i + 1) contextIndent (pasteClamp lastIndent (it.indent + d))
              (some (d + (pasteClamp lastIndent (it.indent + d) - (it.indent + d)))) rest
    | .other => b :: pasteGo atStart (i + 1) 0 lastIndent none rest

/-- `transformPasted` (`flatListPastePlugin`'s prop): `inList` is `some c`
when the top-level ancestor of the paste position is a flat list item with
indent `c` (`from.node(1)`); `atStart` models
`from.depth > 0 && from.pos == from.posAtIndex(from.index(0), 0) + 1`, i.e.
the caret sits at the very start of a top-level node's content.  After the
indent pass, a `_isTempPropped` first list item has the marker cleared and
its leading propping character removed (`content.cut(1)`). -/
def transformPasted (inList : Option Int) (atStart : Bool) (slice : List Block) :
    List Block :=
  match pasteGo atStart 0 (inList.getD 0) (inList.getD (-1)) none slice with
  | .item it :: rest =>
      if it.isTempPropped then
        .item { it with isTempPropped := false, contentLen := it.contentLen - 1 } :: rest
      else .item it :: rest
  | out => out

/-! ### Unfolding equations for `pasteGo` -/

theorem pasteGo_cons_item (atStart : Bool) (i : Nat) (ctx last : Int) (delta : Option Int)
    (it : Item) (rest : List Block) (h : ¬(i = 0 ∧ ¬(atStart = true))) :
    pasteGo atStart i ctx last delta (.item it :: rest) =
      .item { it with indent := pasteClamp last (it.indent + delta.getD (ctx - it.indent)) } ::
        pasteGo atStart (i + 1) ctx
          (pasteClamp last (it.indent + delta.getD (ctx - it.indent)))
          (some (delta.getD (ctx - it.indent) +
            (pasteClamp last (it.indent + delta.getD (ctx - it.indent)) -
              (it.indent + delta.getD (ctx - it.indent))))) rest := by
  show (if i = 0 ∧ ¬(atStart = true) then
      Block.item it :: pasteGo atStart (i + 1) ctx last
        (some (delta.getD (ctx - it.indent))) rest
    else
      Block.item { it with
          indent := pasteClamp last (it.indent + delta.getD (ctx - it.indent)) } ::
        pasteGo atStart (i + 1) ctx
          (pasteClamp last (it.indent + delta.getD (ctx - it.indent)))
          (some (delta.getD (ctx - it.indent) +
            (pasteClamp last (it.indent + delta.getD (ctx - it.indent)) -
              (it.indent + delta.getD (ctx - it.indent))))) rest) = _
  rw [if_neg h]

theorem pasteGo_cons_item_skip (ctx last : Int) (delta : Option Int)
    (it : Item) (rest : List Block) :
    pasteGo false 0 ctx last delta (.item it :: rest) =
      .item it :: pasteGo false 1 ctx last (some (delta.getD (ctx - it.indent))) rest := by
  show (if (0 : Nat) = 0 ∧ ¬(false = true) then
      Block.item it :: pasteGo false 1 ctx last (some (delta.getD (ctx - it.indent))) rest
    else
      Block.item { it with
          indent := pasteClamp last (it.indent + delta.getD (ctx - it.indent)) } ::
        pasteGo false 1 ctx (pasteClamp last (it.indent + delta.getD (ctx - it.indent)))
          (some (delta.getD (ctx - it.indent) +
            (pasteClamp last (it.indent + delta.getD (ctx - it.indent)) -
              (it.indent + delta.getD (ctx - it.indent))))) rest) = _
  rw [if_pos ⟨rfl, by simp⟩]

theorem pasteGo_cons_other (atStart : Bool) (i : Nat) (ctx last : Int) (delta : Option Int)
    (rest : List Block) :
    pasteGo atStart i ctx last delta (.other :: rest) =
      .other :: pasteGo atStart (i + 1) 0 last none rest := rfl

/-- With a list item at the head, a `none` shift behaves like the shift the
item itself induces (`delta === null` is replaced before first use). -/
theorem pasteGo_none_eq (atStart : Bool) (i : Nat) (ctx last : Int)
    (it : Item) (rest : List Block) :
    pasteGo atStart i ctx last none (.item it :: rest) =
      pasteGo atStart i ctx last (some (ctx - it.indent)) (.item it :: rest) := rfl

/-! ### C5: the paste clamp refines the claim's run normalization -/

/-- The indent carried by each block of a slice (`none` for non-items). -/
def blockIndents (l : List Block) : List (Option Int) :=
  l.map (fun b => match b with | .item it => some it.indent | .other => none)

/-- The claim's description of run normalization, transcribed from its
words: every item's shifted indent is clamped into `[0, lastEmitted + 1]`,
the clamping delta is folded into the run's shift so it persists for the
rest of the run, and `lastEmitted` becomes the clamped value. -/
def runNorm (lastEmitted shift : Int) : List Int → List Int
  | [] => []
  | x :: xs =>
    max 0 (min (x + shift) (lastEmitted + 1)) ::
      runNorm (max 0 (min (x + shift) (lastEmitted + 1)))
        (shift + (max 0 (min (x + shift) (lastEmitted + 1)) - (x + shift))) xs

/-- The claim's normalization of a whole pasted run into context indent `c`:
the first item is shifted exactly onto `c`, the rest per `runNorm`. -/
def pasteSpec (c : Int) : List Int → List Int
  | [] => []
  | x :: xs => runNorm c (c - x) (x :: xs)

/-- The code's asymmetric two-branch clamp agrees with the claim's
`[0, lastEmitted + 1]` clamp whenever `lastEmitted ≥ -1` (which always
holds: it starts at the context indent or `-1`, and afterwards equals an
emitted, hence non-negative, indent). -/
theorem pasteClamp_eq (last u : Int) (h : -1 ≤ last) :
    pasteClamp last u = max 0 (min u (last + 1)) := by
  unfold pasteClamp
  rcases le_or_lt 0 u with h1 | h1
  · rcases le_or_lt u (last + 1) with h2 | h2
    · rw [if_neg (by omega), if_neg (by omega), min_eq_left h2, max_eq_right (by omega)]
    · rw [if_neg (by omega), if_pos h2, min_eq_right (by omega), max_eq_right (by omega)]
  · rw [if_pos h1, max_eq_left (by omega)]

theorem pasteClamp_nonneg (last u : Int) (h : -1 ≤ last) : 0 ≤ pasteClamp last u := by
  unfold pasteClamp
  split
  · omega
  · split <;> omega

theorem pasteClamp_le (last u : Int) (h : -1 ≤ last) : pasteClamp last u ≤ last + 1 := by
  unfold pasteClamp
  split
  · omega
  · split <;> omega

/-- Indent-level refinement of the loop by the claim's `runNorm`, for a pure
run of list items with the shift already set and no skipped node
(`atStart = true`). -/
theorem pasteGo_indents (c : Int) :
    ∀ (its : List Item) (i : Nat) (last d : Int), -1 ≤ last →
      blockIndents (pasteGo true i c last (some d) (its.map .item)) =
        (runNorm last d (its.map (·.indent))).map some := by
  intro its
  induction its with
  | nil => intro i last d hlast; rfl
  | cons it0 rest ih =>
    intro i last d hlast
    rw [List.map_cons, pasteGo_cons_item true i c last (some d) it0 (rest.map .item)
      (by simp)]
    have hcl : pasteClamp last (it0.indent + (some d : Option Int).getD (c - it0.indent)) =
        max 0 (min (it0.indent + d) (last + 1)) := pasteClamp_eq last _ hlast
    simp only [Option.getD_some] at hcl ⊢
    show (some (pasteClamp last (it0.indent + d)) ::
        blockIndents (pasteGo true (i + 1) c (pasteClamp last (it0.indent + d))
          (some (d + (pasteClamp last (it0.indent + d) - (it0.indent + d))))
          (rest.map .item))) = _
    rw [List.map_cons, runNorm]
    rw [ih (i + 1) (pasteClamp last (it0.indent + d))
      (d + (pasteClamp last (it0.indent + d) - (it0.indent + d)))
      (by have := pasteClamp_nonneg last (it0.indent + d) hlast; omega)]
    rw [List.map_cons, hcl]

/-- The final `_isTempPropped` cleanup of `transformPasted` does not change
any block's shape or indent. -/
theorem blockIndents_transformPasted (inList : Option Int) (atStart : Bool)
    (slice : List Block) :
    blockIndents (transformPasted inList atStart slice) =
      blockIndents (pasteGo atStart 0 (inList.getD 0) (inList.getD (-1)) none slice) := by
  unfold transformPasted
  rcases hout : pasteGo atStart 0 (inList.getD 0) (inList.getD (-1)) none slice
    with _ | ⟨b, rest⟩
  · rfl
  · rcases b with it | _
    · show blockIndents (if it.isTempPropped = true then
          Block.item { it with isTempPropped := false, contentLen := it.contentLen - 1 } :: rest
        else Block.item it :: rest) = _
      by_cases hp : it.isTempPropped = true
      · rw [if_pos hp]
        rfl
      · rw [if_neg hp]
    · rfl

/-- **C5.**  During paste normalization every list item of a run after the
first has its shifted indent clamped into `[0, lastEmittedIndent + 1]`, with
any clamping delta folded into the run's shift so it persists for the later
items, and `lastEmittedIndent` updated to the clamped value: the emitted
indents of a pasted run of items, inserted at the start of a list item with
indent `c ≥ 0`, are exactly the claim's `pasteSpec`/`runNorm` normalization.
In particular pasting raw indents `[0, 2, 3]` into context indent 1 yields
`[1, 2, 3]`, and pasting `[0, 5]` into context 0 yields `[0, 1]`. -/
theorem claim_C5 :
    (∀ (c : Int), 0 ≤ c → ∀ its : List Item,
      blockIndents (transformPasted (some c) true (its.map .item)) =
        (pasteSpec c (its.map (·.indent))).map some) ∧
    blockIndents (transformPasted (some 1) true [uItem 0, uItem 2, uItem 3]) =
      [some 1, some 2, some 3] ∧
    blockIndents (transformPasted (some 0) true [uItem 0, uItem 5]) =
      [some 0, some 1] := by
  refine ⟨?_, by decide, by decide⟩
  intro c hc its
  rw [blockIndents_transformPasted]
  simp only [Option.getD_some]
  rcases its with _ | ⟨it0, rest⟩
  · rfl
  · rw [List.map_cons, pasteGo_none_eq, ← List.map_cons,
      pasteGo_indents c (it0 :: rest) 0 c (c - it0.indent) (by omega)]
    simp only [List.map_cons]
    rfl

/-- Witness for C5: pasting items with raw indents `[0, 1]` at the start of a
list item with indent 2. -/
theorem claim_C5_witness :
    blockIndents (transformPasted (some 2) true
        (List.map Block.item [⟨.unordered, 0, 1, false, false, 1⟩,
          ⟨.unordered, 1, 1, false, false, 1⟩])) =
      (pasteSpec 2 (List.map (·.indent)
        ([⟨.unordered, 0, 1, false, false, 1⟩,
          ⟨.unordered, 1, 1, false, false, 1⟩] : List Item))).map some := by
  exact claim_C5.1 2 (by decide)
    [⟨.unordered, 0, 1, false, false, 1⟩, ⟨.unordered, 1, 1, false, false, 1⟩]

/-- The head of `transformPasted` when the loop produced a list item there:
the cleanup step may clear `_isTempPropped` and shorten the content, but
never changes the indent. -/
theorem transformPasted_head (inList : Option Int) (atStart : Bool) (slice : List Block)
    (it : Item) (tail : List Block)
    (h : pasteGo atStart 0 (inList.getD 0) (inList.getD (-1)) none slice = .item it :: tail) :
    ∃ it', (transformPasted inList atStart slice).head? = some (.item it') ∧
      it'.indent = it.indent := by
  have hred : transformPasted inList atStart slice =
      if it.isTempPropped = true then
        Block.item { it with isTempPropped := false, contentLen := it.contentLen - 1 } :: tail
      else Block.item it :: tail := by
    unfold transformPasted
    rw [h]
  rw [hred]
  by_cases hp : it.isTempPropped = true
  · rw [if_pos hp]
    exact ⟨_, rfl, rfl⟩
  · rw [if_neg hp]
    exact ⟨it, rfl, rfl⟩

/-- **C8.**  The first node of the pasted fragment, when it is a list item,
keeps its indent untouched (it will be absorbed into the paste target) —
unless the caret sits at the very start of the target node's content, in
which case it is shifted and clamped like any other run member (the shift
`contextIndent - indent` lands it on the context indent before clamping). -/
theorem claim_C8 (inList : Option Int) (it : Item) (rest : List Block) :
    (∃ it', (transformPasted inList false (.item it :: rest)).head? = some (.item it') ∧
        it'.indent = it.indent) ∧
    (∃ it', (transformPasted inList true (.item it :: rest)).head? = some (.item it') ∧
        it'.indent = pasteClamp (inList.getD (-1))
          (it.indent + (inList.getD 0 - it.indent))) := by
  constructor
  · exact transformPasted_head inList false (.item it :: rest) it _
      (pasteGo_cons_item_skip (inList.getD 0) (inList.getD (-1)) none it rest)
  · exact transformPasted_head inList true (.item it :: rest) _ _
      (pasteGo_cons_item true 0 (inList.getD 0) (inList.getD (-1)) none it rest
        (by simp))

/-! ### Paste normalization and the staircase invariant -/

theorem staircase_singleton (x : Block) : Staircase [x] := by
  intro i
  rcases i with _ | i
  · simp only [List.getElem?_cons_zero, List.getElem?_cons_succ, List.getElem?_nil]
    rcases x with a | _ <;> trivial
  · simp only [List.getElem?_cons_succ, List.getElem?_nil]
    trivial

theorem stairRelO_head_congr {p q : Item} {y : Option Block}
    (hr : stairRelO (some (.item p)) y) (h : q.indent = p.indent) :
    stairRelO (some (.item q)) y := by
  rcases y with _ | (b | _)
  · trivial
  · show b.indent ≤ q.indent + 1
    rw [h]
    exact hr
  · trivial

/-- The emitted blocks of the paste loop always satisfy the staircase
invariant relative to an item at the running `lastIndent` (provided the first
node is not skipped: `atStart` or a later index). -/
theorem pasteGo_staircase (atStart : Bool) :
    ∀ (slice : List Block) (i : Nat) (ctx last : Int) (delta : Option Int),
      -1 ≤ last → (atStart = true ∨ 1 ≤ i) →
      Staircase (uItem last :: pasteGo atStart i ctx last delta slice) := by
  intro slice
  induction slice with
  | nil =>
    intro i ctx last delta hlast hi
    exact staircase_singleton _
  | cons b rest ih =>
    intro i ctx last delta hlast hi
    rcases b with it | _
    · rw [pasteGo_cons_item atStart i ctx last delta it rest
        (by
          rintro ⟨h0, hna⟩
          rcases hi with h | h
          · exact hna h
          · omega)]
      rw [staircase_cons]
      constructor
      · rw [List.getElem?_cons_zero]
        show pasteClamp last (it.indent + delta.getD (ctx - it.indent)) ≤ last + 1
        exact pasteClamp_le last _ hlast
      · have hih := ih (i + 1) ctx (pasteClamp last (it.indent + delta.getD (ctx - it.indent)))
          (some (delta.getD (ctx - it.indent) +
            (pasteClamp last (it.indent + delta.getD (ctx - it.indent)) -
              (it.indent + delta.getD (ctx - it.indent)))))
          (by have := pasteClamp_nonneg last (it.indent + delta.getD (ctx - it.indent)) hlast
              omega)
          (Or.inr (by omega))
        rw [staircase_cons] at hih ⊢
        exact ⟨stairRelO_head_congr hih.1 rfl, hih.2⟩
    · rw [pasteGo_cons_other]
      rw [staircase_cons]
      refine ⟨?_, ?_⟩
      · rw [List.getElem?_cons_zero]
        show stairRelO (some (uItem last)) (some Block.other)
        trivial
      · rw [staircase_cons]
        refine ⟨stairRelO_other_left _, ?_⟩
        exact ((staircase_cons _ _).mp
          (ih (i + 1) 0 last none hlast (Or.inr (by omega)))).2

/-- The `_isTempPropped` cleanup preserves the staircase invariant. -/
theorem transformPasted_staircase (inList : Option Int) (atStart : Bool)
    (slice : List Block)
    (h : Staircase (pasteGo atStart 0 (inList.getD 0) (inList.getD (-1)) none slice)) :
    Staircase (transformPasted inList atStart slice) := by
  unfold transformPasted
  rcases hout : pasteGo atStart 0 (inList.getD 0) (inList.getD (-1)) none slice
    with _ | ⟨b, rest⟩
  · rw [hout] at h
    exact h
  · rcases b with it | _
    · rw [hout] at h
      show Staircase (if it.isTempPropped = true then
          Block.item { it with isTempPropped := false, contentLen := it.contentLen - 1 } :: rest
        else Block.item it :: rest)
      by_cases hp : it.isTempPropped = true
      · rw [if_pos hp]
        rw [staircase_cons] at h ⊢
        exact ⟨stairRelO_head_congr h.1 rfl, h.2⟩
      · rw [if_neg hp]
        exact h
    · rw [hout] at h
      exact h

/-- The block that holds the paste target's place in the document: the
containing flat list item (indent `c`, list type irrelevant for the staircase)
or a non-list block. -/
def pasteCtxBlock : Option Int → Block
  | some c => uItem c
  | none => .other

/-- The pasted slice as its blocks land in the document around the paste
target: when the caret is mid-node (`¬atStart`), the target block precedes
the pasted blocks, and a leading pasted list item is absorbed into the target
(its indent is discarded); when the caret is at the very start (`atStart`),
the first pasted node replaces the target's type, so the slice stands on its
own.  This covers the pasted run and its *leading* junction only; the whole
document, including the trailing junction with the blocks that follow the
paste point — which `transformPasted` never renormalizes — is
`pasteSpliced`. -/
def pasteInContext (inList : Option Int) (atStart : Bool) (slice : List Block) :
    List Block :=
  if atStart then transformPasted inList atStart slice
  else
    match slice with
    | .item _ :: _ => pasteCtxBlock inList :: (transformPasted inList atStart slice).drop 1
    | _ => pasteCtxBlock inList :: transformPasted inList atStart slice

/-- The whole document after the paste: the blocks before the target, the
target with the normalized fragment (`pasteInContext`), then the blocks that
followed the paste point, which the plugin leaves untouched. -/
def pasteSpliced (before : List Block) (inList : Option Int) (atStart : Bool)
    (slice after : List Block) : List Block :=
  before ++ pasteInContext inList atStart slice ++ after

theorem pasteInContext_true (inList : Option Int) (slice : List Block) :
    pasteInContext inList true slice = transformPasted inList true slice := by
  unfold pasteInContext
  rw [if_pos rfl]

theorem pasteInContext_false_item (inList : Option Int) (it : Item) (rest : List Block) :
    pasteInContext inList false (.item it :: rest) =
      pasteCtxBlock inList :: (transformPasted inList false (.item it :: rest)).drop 1 := by
  unfold pasteInContext
  rw [if_neg (by simp)]

theorem pasteInContext_false_other (inList : Option Int) (rest : List Block) :
    pasteInContext inList false (.other :: rest) =
      pasteCtxBlock inList :: transformPasted inList false (.other :: rest) := by
  unfold pasteInContext
  rw [if_neg (by simp)]

theorem pasteInContext_false_nil (inList : Option Int) :
    pasteInContext inList false [] = [pasteCtxBlock inList] := by
  unfold pasteInContext
  rw [if_neg (by simp)]
  rfl

theorem transformPasted_false_item_drop (inList : Option Int) (it : Item)
    (rest : List Block) :
    (transformPasted inList false (.item it :: rest)).drop 1 =
      pasteGo false 1 (inList.getD 0) (inList.getD (-1))
        (some (inList.getD 0 - it.indent)) rest := by
  have hred : transformPasted inList false (.item it :: rest) =
      if it.isTempPropped = true then
        Block.item { it with isTempPropped := false, contentLen := it.contentLen - 1 } ::
          pasteGo false 1 (inList.getD 0) (inList.getD (-1))
            (some (inList.getD 0 - it.indent)) rest
      else Block.item it ::
          pasteGo false 1 (inList.getD 0) (inList.getD (-1))
            (some (inList.getD 0 - it.indent)) rest := by
    unfold transformPasted
    rw [pasteGo_cons_item_skip]
    rfl
  rw [hred]
  by_cases hp : it.isTempPropped = true
  · rw [if_pos hp]
    rfl
  · rw [if_neg hp]
    rfl

/-- Paste normalization yields a staircase-valid neighborhood: the emitted
blocks, placed after the paste target (with a leading pasted list item
absorbed into the target when the caret is mid-node), contain no adjacent
item pair violating the staircase rule — for any incoming indents. -/
theorem paste_staircase (inList : Option Int) (atStart : Bool) (slice : List Block)
    (hc : ∀ c ∈ inList, 0 ≤ c) : Staircase (pasteInContext inList atStart slice) := by
  have hlast : -1 ≤ inList.getD (-1) := by
    rcases inList with _ | c
    · simp
    · have := hc c rfl
      simp only [Option.getD_some]
      omega
  rcases hAS : atStart with _ | _
  · rcases slice with _ | ⟨b, rest⟩
    · rw [pasteInContext_false_nil]
      exact staircase_singleton _
    · rcases b with it | _
      · rw [pasteInContext_false_item, transformPasted_false_item_drop]
        have hmain := pasteGo_staircase false rest 1 (inList.getD 0) (inList.getD (-1))
          (some (inList.getD 0 - it.indent)) hlast (Or.inr (Nat.le_refl 1))
        rcases inList with _ | c
        · rw [staircase_cons]
          exact ⟨stairRelO_other_left _, ((staircase_cons _ _).mp hmain).2⟩
        · exact hmain
      · rw [pasteInContext_false_other]
        have heq : transformPasted inList false (.other :: rest) =
            .other :: pasteGo false 1 0 (inList.getD (-1)) none rest := by
          unfold transformPasted
          rw [pasteGo_cons_other]
        rw [heq, staircase_cons]
        refine ⟨?_, ?_⟩
        · rw [List.getElem?_cons_zero]
          rcases inList with _ | c
          · exact stairRelO_other_left _
          · show stairRelO (some (uItem c)) (some Block.other)
            trivial
        · rw [staircase_cons]
          exact ⟨stairRelO_other_left _, ((staircase_cons _ _).mp
            (pasteGo_staircase false rest 1 0 (inList.getD (-1)) none hlast
              (Or.inr (Nat.le_refl 1)))).2⟩
  · rw [pasteInContext_true]
    apply transformPasted_staircase
    exact ((staircase_cons _ _).mp
      (pasteGo_staircase true slice 0 (inList.getD 0) (inList.getD (-1)) none hlast
        (Or.inl rfl))).2

/-- **C1 counterexample.**  Two of the three operations can break the
document-wide staircase invariant.  (1) Dedent with a multi-range selection
— which ProseMirror selections can have, and whose ranges the command
iterates: dedenting items 1 and 3 of `[0, 1, 2, 2]` (two single-item
ranges) yields `[0, 0, 2, 1]`, where item 2 exceeds item 1 by 2 (the
cascade only runs after the *last* recorded item, so the hole after the
first range is never repaired).  (2) Paste, at the trailing junction: in
the staircase-valid document `[0, 1, 2, 3]`, pasting raw indents `[5, 0]`
mid-node into the indent-2 item normalizes the run to end at indent 0
(delta `2 - 5 = -3`, second item clamped `-3 → 0`), and nothing
renormalizes the following document blocks, leaving the indent-0 item
immediately before the untouched indent-3 item. -/
theorem claim_C1_counterexample :
    (Staircase [uItem 0, uItem 1, uItem 2, uItem 2] ∧
      ¬ Staircase
        (dedentFlatListItem [uItem 0, uItem 1, uItem 2, uItem 2] [(1, 1), (3, 3)] false).1) ∧
    (Staircase ([uItem 0, uItem 1] ++ [pasteCtxBlock (some 2)] ++ [uItem 3]) ∧
      ¬ Staircase
        (pasteSpliced [uItem 0, uItem 1] (some 2) false [uItem 5, uItem 0] [uItem 3])) := by
  refine ⟨⟨?_, ?_⟩, ?_, ?_⟩ <;> rw [staircase_iff] <;> decide

/-- **C1 (amended).**  Indent preserves the staircase invariant
document-wide for any selection ranges.  Dedent preserves it document-wide
for single-range selections; multi-range selections can break it.  Paste
normalization guarantees the invariant only for the pasted run and its
leading junction — the emitted blocks together with the paste target,
with a leading pasted list item absorbed when the caret is mid-node — for
any incoming fragment; the document-wide invariant can break at the
trailing junction, where the blocks after the paste point are never
renormalized. -/
theorem claim_C1 :
    (∀ (doc : List Block) (ranges : List (Nat × Nat)), Staircase doc →
        Staircase (indentFlatListItem doc ranges).1) ∧
    (∀ (doc : List Block) (f t : Nat) (canConvert : Bool), Staircase doc →
        Staircase (dedentFlatListItem doc [(f, t)] canConvert).1) ∧
    (∀ (inList : Option Int) (atStart : Bool) (slice : List Block),
        (∀ c ∈ inList, 0 ≤ c) → Staircase (pasteInContext inList atStart slice)) :=
  ⟨indent_staircase, dedent_staircase, paste_staircase⟩

/-- Witness for C1: indenting the second item of `[0, 0]` keeps the staircase
invariant. -/
theorem claim_C1_witness :
    Staircase (indentFlatListItem [uItem 0, uItem 0] [(1, 1)]).1 :=
  claim_C1.1 [uItem 0, uItem 0] [(1, 1)] (by rw [staircase_iff]; decide)

/-! ## The Postprocessor

`flatListPostprocessorPlugin` (`src/internal/postprocessor-plugin.ts`): after
every change, one linear scan over the document's blocks (`doc.descendants`
with the callback returning `false`, so it never descends) recomputes each
ordered item's `counter` from the `lastCounters` array and clears
`_isTempPropped` markers, scheduling one leading-character deletion per
marker (applied in descending position order, which in this model is the
per-item content cut).  If nothing changed the plugin returns `null`
(`updated = false`). -/

/-- Result of the postprocessor pass: the new document, the `updated` flag
(whether a transaction is returned at all), and the number of scheduled
propping-character deletions (`toDelete.length`). -/
structure PostResult where
  blocks : List Block
  updated : Bool
  deletions : Nat
deriving DecidableEq

/-- `lastCounters[indent] ?? 0`: JS holes and out-of-range reads are
`undefined`, coalesced to 0. -/
def countersGet (s : List Int) (i : Nat) : Int := s.getD i 0

/-- `lastCounters[indent] = v`: assigning past the end creates holes, which
read back as `undefined ?? 0`; we pad with zeros accordingly. -/
def countersSet (s : List Int) (i : Nat) (v : Int) : List Int :=
  if i < s.length then s.set i v
  else (s ++ List.replicate (i - s.length) 0) ++ [v]

/-- The counter rewrite for one node
(`nodeAttrs = { ...nodeAttrs, counter: counterValue }` on ordered items). -/
def ppItemCounter (s : List Int) (it : Item) : Item :=
  if it.ltype = .ordered then { it with counter := countersGet s it.indent.toNat + 1 }
  else it

/-- The `lastCounters` state after one node: ordered items record their
counter and truncate to `indent + 1` (`lastCounters.length = indent + 1`);
other list items truncate to `indent` (`lastCounters.length = indent`).
`indent.toNat`: the JS array length assignment is only meaningful for the
non-negative indents of the documented data model (a negative indent would
throw a `RangeError`), so the theorems below assume non-negative indents. -/
def ppNextState (s : List Int) (it : Item) : List Int :=
  if it.ltype = .ordered then
    (countersSet s it.indent.toNat (countersGet s it.indent.toNat + 1)).take
      (it.indent.toNat + 1)
  else s.take it.indent.toNat

/-- The `_isTempPropped` cleanup for one node: clear the marker and delete
the leading propping character from its content. -/
def ppClearProp (it : Item) : Item :=
  if it.isTempPropped then
    { it with isTempPropped := false, contentLen := it.contentLen - 1 }
  else it

/-- The scan of the postprocessor over the remaining blocks, with the current
`lastCounters` state. -/
def ppGo : List Int → List Block → PostResult
  | _, [] => ⟨[], false, 0⟩
  | s, .item it :: rest =>
    ⟨.item (ppClearProp (ppItemCounter s it)) :: (ppGo (ppNextState s it) rest).blocks,
     ((if it.ltype = .ordered then decide (it.counter ≠ countersGet s it.indent.toNat + 1)
       else false) ||
      (ppItemCounter s it).isTempPropped ||
      (ppGo (ppNextState s it) rest).updated),
     (if (ppItemCounter s it).isTempPropped then 1 else 0) +
       (ppGo (ppNextState s it) rest).deletions⟩
  | _, .other :: rest =>
    ⟨.other :: (ppGo [] rest).blocks, (ppGo [] rest).updated, (ppGo [] rest).deletions⟩

/-- The whole postprocessor pass (`appendTransaction`): scan from an empty
`lastCounters`. -/
def flatListPostprocessorPlugin (doc : List Block) : PostResult := ppGo [] doc

/-- Non-negative indent at one block (the documented data model; see
`ppNextState`). -/
def blockNonnegB : Block → Bool
  | .item it => decide (0 ≤ it.indent)
  | .other => true

/-- A document all of whose items carry non-negative indents. -/
def NonnegIndents (doc : List Block) : Prop :=
  ∀ b ∈ doc, blockNonnegB b = true

instance (doc : List Block) : Decidable (NonnegIndents doc) :=
  List.decidableBAll _ doc

/-! ### C6: the pass is idempotent -/

theorem ppClearProp_not_propped (it : Item) :
    (ppClearProp it).isTempPropped = false := by
  unfold ppClearProp
  by_cases h : it.isTempPropped = true
  · rw [if_pos h]
  · rw [if_neg h]
    simp at h
    exact h

theorem ppClearProp_indent (it : Item) : (ppClearProp it).indent = it.indent := by
  unfold ppClearProp
  split <;> rfl

theorem ppClearProp_ltype (it : Item) : (ppClearProp it).ltype = it.ltype := by
  unfold ppClearProp
  split <;> rfl

theorem ppClearProp_counter (it : Item) : (ppClearProp it).counter = it.counter := by
  unfold ppClearProp
  split <;> rfl

theorem ppItemCounter_indent (s : List Int) (it : Item) :
    (ppItemCounter s it).indent = it.indent := by
  unfold ppItemCounter
  split <;> rfl

theorem ppItemCounter_ltype (s : List Int) (it : Item) :
    (ppItemCounter s it).ltype = it.ltype := by
  unfold ppItemCounter
  split <;> rfl

theorem ppItemCounter_counter_ordered (s : List Int) (it : Item)
    (h : it.ltype = .ordered) :
    (ppItemCounter s it).counter = countersGet s it.indent.toNat + 1 := by
  unfold ppItemCounter
  rw [if_pos h]

theorem ppGo_idem : ∀ (bs : List Block) (s : List Int),
    ppGo s (ppGo s bs).blocks = ⟨(ppGo s bs).blocks, false, 0⟩ := by
  intro bs
  induction bs with
  | nil => intro s; rfl
  | cons b rest ih =>
    intro s
    rcases b with it | _
    · show ppGo s (.item (ppClearProp (ppItemCounter s it)) ::
          (ppGo (ppNextState s it) rest).blocks) =
        ⟨.item (ppClearProp (ppItemCounter s it)) ::
          (ppGo (ppNextState s it) rest).blocks, false, 0⟩
      set it2 := ppClearProp (ppItemCounter s it) with hit2
      have hind : it2.indent = it.indent :=
        (ppClearProp_indent _).trans (ppItemCounter_indent s it)
      have hlt : it2.ltype = it.ltype :=
        (ppClearProp_ltype _).trans (ppItemCounter_ltype s it)
      have hprop : it2.isTempPropped = false := ppClearProp_not_propped _
      -- the second visit recomputes the same counter, already stored
      have hx : it2.ltype = .ordered →
          countersGet s it2.indent.toNat + 1 = it2.counter := by
        intro ho
        have hc2 : it2.counter = countersGet s it.indent.toNat + 1 :=
          (ppClearProp_counter _).trans
            (ppItemCounter_counter_ordered s it (hlt.symm.trans ho))
        rw [hind, hc2]
      have hcounter : ppItemCounter s it2 = it2 := by
        unfold ppItemCounter
        by_cases ho : it2.ltype = .ordered
        · rw [if_pos ho, hx ho]
        · rw [if_neg ho]
      have hstate : ppNextState s it2 = ppNextState s it := by
        unfold ppNextState
        by_cases ho : it2.ltype = .ordered
        · rw [if_pos ho, if_pos (hlt.symm.trans ho), hind]
        · rw [if_neg ho, if_neg (fun hc => ho (hlt.trans hc)), hind]
      show (⟨.item (ppClearProp (ppItemCounter s it2)) :: (ppGo (ppNextState s it2) _).blocks,
          _, _⟩ : PostResult) = _
      rw [hcounter, hstate, ih (ppNextState s it)]
      have hflag : (if it2.ltype = .ordered
          then decide (it2.counter ≠ countersGet s it2.indent.toNat + 1) else false) = false := by
        by_cases ho : it2.ltype = .ordered
        · rw [if_pos ho, hx ho]
          simp
        · rw [if_neg ho]
      have hclear : ppClearProp it2 = it2 := by
        unfold ppClearProp
        rw [hprop]
        rfl
      rw [hclear, hflag, hprop]
      rfl
    · show ppGo s (.other :: (ppGo [] rest).blocks) =
        (⟨.other :: (ppGo [] rest).blocks, false, 0⟩ : PostResult)
      show (⟨.other :: (ppGo [] (ppGo [] rest).blocks).blocks,
          (ppGo [] (ppGo [] rest).blocks).updated,
          (ppGo [] (ppGo [] rest).blocks).deletions⟩ : PostResult) = _
      rw [ih []]

theorem ppGo_no_propped : ∀ (bs : List Block) (s : List Int), ∀ b ∈ (ppGo s bs).blocks,
    ∀ it : Item, b = .item it → it.isTempPropped = false := by
  intro bs
  induction bs with
  | nil =>
    intro s b hb it hit
    simp [ppGo] at hb
  | cons b0 rest ih =>
    intro s b hb it hit
    rcases b0 with it0 | _
    · have hb2 : b ∈ .item (ppClearProp (ppItemCounter s it0)) ::
          (ppGo (ppNextState s it0) rest).blocks := hb
      rcases List.mem_cons.mp hb2 with rfl | hmem
      · cases hit
        exact ppClearProp_not_propped _
      · exact ih (ppNextState s it0) b hmem it hit
    · have hb2 : b ∈ .other :: (ppGo [] rest).blocks := hb
      rcases List.mem_cons.mp hb2 with rfl | hmem
      · cases hit
      · exact ih [] b hmem it hit

/-- **C6.**  The postprocessor pass is idempotent: after it runs once on a
document (with the data model's non-negative indents), every list item has
`_isTempPropped = false` and no propping-character deletion is pending, and
re-running the pass produces no change at all — it returns a no-op
(`updated = false`, no deletions, identical document). -/
theorem claim_C6 (doc : List Block) (hnn : NonnegIndents doc) :
    (∀ b ∈ (flatListPostprocessorPlugin doc).blocks, ∀ it : Item, b = .item it →
        it.isTempPropped = false) ∧
    flatListPostprocessorPlugin (flatListPostprocessorPlugin doc).blocks =
      ⟨(flatListPostprocessorPlugin doc).blocks, false, 0⟩ := by
  exact ⟨fun b hb it hit => ppGo_no_propped doc [] b hb it hit, ppGo_idem doc []⟩

/-- Witness for C6 at a concrete document (an ordered item with a stale
counter and a propped unordered item). -/
theorem claim_C6_witness :
    NonnegIndents [oItem 0 5, .item ⟨.unordered, 1, 1, false, true, 3⟩] ∧
    flatListPostprocessorPlugin
        (flatListPostprocessorPlugin
          [oItem 0 5, .item ⟨.unordered, 1, 1, false, true, 3⟩]).blocks =
      ⟨(flatListPostprocessorPlugin
          [oItem 0 5, .item ⟨.unordered, 1, 1, false, true, 3⟩]).blocks, false, 0⟩ :=
  ⟨by decide, (claim_C6 [oItem 0 5, .item ⟨.unordered, 1, 1, false, true, 3⟩] (by decide)).2⟩

/-! ### C2: the counters match the claim's record-per-indent scan

The claim describes the scan with a record of the *last counter per indent
level* that can be absent (`1 if no record`), so its state is a
`List (Option Int)`; the code's `lastCounters` coalesces holes with `?? 0`.
The definitions below are written from the claim's words and compared with
`ppGo`. -/

/-- The claim's counter for an ordered item at indent `i`:
`(last record at i) + 1`, or `1` if no record. -/
def claimRead (r : List (Option Int)) (i : Nat) : Int :=
  match r.getD i none with
  | some v => v + 1
  | none => 1

/-- The claim's `records it at i`: store the counter at slot `i`, padding
with absent records if the slot does not exist yet. -/
def claimRecSet (r : List (Option Int)) (i : Nat) (c : Int) : List (Option Int) :=
  if i < r.length then r.set i (some c)
  else (r ++ List.replicate (i - r.length) none) ++ [some c]

/-- One left-to-right scan over the blocks, per the claim's words, emitting
for each block the counter value it assigns (`none` for blocks that get no
counter): an ordered item at indent `i` gets `claimRead`, is recorded at `i`,
and the records for indents `> i` are truncated; a non-ordered list item at
indent `i` resets the records for indents `≥ i`; a non-list block resets all
records. -/
def claimCounters : List (Option Int) → List Block → List (Option Int)
  | r, .item it :: rest =>
    if it.ltype = .ordered then
      some (claimRead r it.indent.toNat) ::
        claimCounters
          ((claimRecSet r it.indent.toNat (claimRead r it.indent.toNat)).take
            (it.indent.toNat + 1)) rest
    else
      none :: claimCounters (r.take it.indent.toNat) rest
  | _, .other :: rest => none :: claimCounters [] rest
  | _, [] => []

theorem claimRead_map (r : List (Option Int)) (i : Nat) :
    claimRead r i = countersGet (r.map fun o => o.getD 0) i + 1 := by
  unfold claimRead countersGet
  rw [List.getD_eq_getElem?_getD, List.getD_eq_getElem?_getD, List.getElem?_map]
  rcases h : r[i]? with _ | o
  · rfl
  · rcases o with _ | v <;> rfl

theorem claimRecSet_map (r : List (Option Int)) (i : Nat) (c : Int) :
    (claimRecSet r i c).map (fun o => o.getD 0) = countersSet (r.map fun o => o.getD 0) i c := by
  unfold claimRecSet countersSet
  rw [List.length_map]
  by_cases h : i < r.length
  · rw [if_pos h, if_pos h, List.map_set]
    rfl
  · rw [if_neg h, if_neg h]
    simp [List.map_replicate]

theorem claimCounters_cons_item (r : List (Option Int)) (it : Item) (rest : List Block) :
    claimCounters r (.item it :: rest) =
      if it.ltype = .ordered then
        some (claimRead r it.indent.toNat) ::
          claimCounters
            ((claimRecSet r it.indent.toNat (claimRead r it.indent.toNat)).take
              (it.indent.toNat + 1)) rest
      else none :: claimCounters (r.take it.indent.toNat) rest := rfl

theorem ppGo_counters : ∀ (bs : List Block) (r : List (Option Int)) (j : Nat) (it : Item),
    (ppGo (r.map fun o => o.getD 0) bs).blocks[j]? = some (.item it) →
    it.ltype = .ordered →
    (claimCounters r bs)[j]? = some (some it.counter) := by
  intro bs
  induction bs with
  | nil =>
    intro r j it hj _
    have hj2 : (List.nil (α := Block))[j]? = some (.item it) := hj
    simp at hj2
  | cons b0 rest ih =>
    intro r j it hj ho
    rcases b0 with it0 | _
    · have hj2 : (.item (ppClearProp (ppItemCounter (r.map fun o => o.getD 0) it0)) ::
          (ppGo (ppNextState (r.map fun o => o.getD 0) it0) rest).blocks)[j]? =
            some (.item it) := hj
      by_cases hlt : it0.ltype = .ordered
      · rw [claimCounters_cons_item, if_pos hlt]
        rcases j with _ | j
        · rw [List.getElem?_cons_zero] at hj2 ⊢
          have hit : it = ppClearProp (ppItemCounter (r.map fun o => o.getD 0) it0) := by
            injection hj2 with h
            injection h with h
            exact h.symm
          have hc : it.counter = countersGet (r.map fun o => o.getD 0) it0.indent.toNat + 1 := by
            rw [hit, ppClearProp_counter]
            exact ppItemCounter_counter_ordered _ it0 hlt
          rw [hc, ← claimRead_map]
        · rw [List.getElem?_cons_succ] at hj2 ⊢
          have hst : ppNextState (r.map fun o => o.getD 0) it0 =
              ((claimRecSet r it0.indent.toNat (claimRead r it0.indent.toNat)).take
                (it0.indent.toNat + 1)).map (fun o => o.getD 0) := by
            unfold ppNextState
            rw [if_pos hlt, List.map_take, claimRecSet_map, claimRead_map]
          rw [hst] at hj2
          exact ih _ j it hj2 ho
      · rw [claimCounters_cons_item, if_neg hlt]
        rcases j with _ | j
        · rw [List.getElem?_cons_zero] at hj2
          have hit : it = ppClearProp (ppItemCounter (r.map fun o => o.getD 0) it0) := by
            injection hj2 with h
            injection h with h
            exact h.symm
          have : it.ltype = it0.ltype := by
            rw [hit, ppClearProp_ltype, ppItemCounter_ltype]
          rw [this] at ho
          exact absurd ho hlt
        · rw [List.getElem?_cons_succ] at hj2 ⊢
          have hst : ppNextState (r.map fun o => o.getD 0) it0 =
              (r.take it0.indent.toNat).map (fun o => o.getD 0) := by
            unfold ppNextState
            rw [if_neg hlt, List.map_take]
          rw [hst] at hj2
          exact ih _ j it hj2 ho
    · have hj2 : (.other :: (ppGo [] rest).blocks)[j]? = some (.item it) := hj
      rw [show claimCounters r (.other :: rest) = none :: claimCounters [] rest from rfl]
      rcases j with _ | j
      · rw [List.getElem?_cons_zero] at hj2
        injection hj2 with h
        cases h
      · rw [List.getElem?_cons_succ] at hj2 ⊢
        exact ih [] j it hj2 ho

/-- **C2.**  After the postprocessor pass runs (on a document with the data
model's non-negative indents), every ordered list item's counter equals the
value assigned at its position by the claim's single left-to-right scan
keeping a record of the last counter per indent level. -/
theorem claim_C2 (doc : List Block) (hnn : NonnegIndents doc) (j : Nat) (it : Item)
    (hj : (flatListPostprocessorPlugin doc).blocks[j]? = some (.item it))
    (ho : it.ltype = .ordered) :
    (claimCounters [] doc)[j]? = some (some it.counter) :=
  ppGo_counters doc [] j it hj ho

/-- Witness for C2: three ordered items at indents `[0, 1, 0]`; the third
gets counter 2 (the record at indent 0 survives the deeper run). -/
theorem claim_C2_witness :
    NonnegIndents [oItem 0 9, oItem 1 9, oItem 0 9] ∧
    (flatListPostprocessorPlugin [oItem 0 9, oItem 1 9, oItem 0 9]).blocks[2]? =
      some (.item ⟨.ordered, 0, 2, false, false, 1⟩) ∧
    (claimCounters [] [oItem 0 9, oItem 1 9, oItem 0 9])[2]? = some (some 2) :=
  ⟨by decide, by decide,
    claim_C2 [oItem 0 9, oItem 1 9, oItem 0 9] (by decide) 2
      ⟨.ordered, 0, 2, false, false, 1⟩ (by decide) rfl⟩

/-! ## Indent inference on parse

`computeIndent` (`src/internal/utils.ts`): an `<li>`'s indent is the stored
`data-list-indent` attribute when it parses as an integer; otherwise the
number of ancestor `ol`/`ul` elements, counted from `-1` and floored at 0. -/

/-- The value of a digit run, accumulating left to right and stopping at the
first non-digit (JS `parseInt` ignores trailing garbage). -/
def digitsVal : List Char → Nat → Nat
  | [], acc => acc
  | c :: cs, acc => if c.isDigit then digitsVal cs (acc * 10 + (c.toNat - 48)) else acc

/-- A non-empty digit run and its value, `none` otherwise. -/
def parseDigits : List Char → Option Nat
  | c :: cs => if c.isDigit then some (digitsVal cs (c.toNat - 48)) else none
  | [] => none

/-- JS `Number.parseInt` on a decimal attribute string: skip leading
whitespace, read an optional sign, then a non-empty digit run; `none` when no
digit follows (JS `NaN`, which `Number.isInteger` then rejects).  (JS also
accepts a `0x` hex prefix; that case never arises for this attribute and is
not modelled.) -/
def parseIntCore : List Char → Option Int
  | [] => none
  | c :: cs =>
    if c = ' ' then parseIntCore cs
    else if c = '-' then (parseDigits cs).map (fun n => -(n : Int))
    else if c = '+' then (parseDigits cs).map (fun n => (n : Int))
    else (parseDigits (c :: cs)).map (fun n => (n : Int))

/-- `parseIntegerAttr`: `null` attributes and `NaN` parses are rejected; any
number `parseInt` produces is an integer, so the `Number.isInteger` check
only filters out `NaN`. -/
def parseIntegerAttr (attr : Option String) : Option Int :=
  match attr with
  | none => none
  | some s => parseIntCore s.toList

/-- `computeIndent`, with the `<li>` element abstracted to its
`data-list-indent` attribute and its number of `ol`/`ul` ancestors.  The
ancestor count starts at `-1` and the floor at 0 (`Math.max(count, 0)`) sits
only on this fallback path. -/
def computeIndent (storedAttr : Option String) (ancestorLists : Nat) : Int :=
  match parseIntegerAttr storedAttr with
  | some storedIndent => storedIndent
  | none => max ((ancestorLists : Int) - 1) 0

/-- **C10.**  `computeIndent` returns the stored `data-list-indent`
attribute verbatim whenever it parses as an integer — including negative
integers, as for the attribute string `"-3"` — while the floor at 0 applies
only on the fallback path that counts ancestor list wrappers (which is
always non-negative).  So an `<li>` carrying a negative integer attribute
parses to a negative indent, contrary to the documented non-negative indent
range. -/
theorem claim_C10 :
    (∀ (s : String) (n : Nat) (v : Int),
        parseIntegerAttr (some s) = some v → computeIndent (some s) n = v) ∧
    (∀ n : Nat, computeIndent (some "-3") n = -3) ∧
    (∀ (a : Option String) (n : Nat),
        parseIntegerAttr a = none → 0 ≤ computeIndent a n) := by
  refine ⟨?_, ?_, ?_⟩
  · intro s n v h
    unfold computeIndent
    rw [h]
  · intro n
    have h : parseIntegerAttr (some "-3") = some (-3) := rfl
    unfold computeIndent
    rw [h]
  · intro a n h
    unfold computeIndent
    rw [h]
    exact le_max_right _ _

/-- Witness for C10: the parse of `"-3"` succeeds with value `-3` and is
returned verbatim (at 5 ancestor lists, which the stored path ignores). -/
theorem claim_C10_witness :
    parseIntegerAttr (some "-3") = some (-3) ∧ computeIndent (some "-3") 5 = -3 :=
  ⟨rfl, claim_C10.1 "-3" 5 (-3) rfl⟩

/-! ## The folder (`joinListElements`)

The serializer renders each flat list item as an `ol`/`ul` wrapper holding a
single `li`; `joinListElements` joins adjacent wrappers and nests them when
indented.  The DOM is modelled as a rose tree whose elements carry the
attributes the function reads or writes (`data-list-indent`,
`data-task-list`, `start`, the `style` property list) plus an inert
`nodeId` identity tag; tags are stored as JS `tagName` (uppercase).  JS
element references held across mutations (`lastLists`) become paths into
the output forest; appends only ever add a last child, so recorded paths
stay valid. -/

/-- The element attributes `joinListElements` touches, plus an inert
identity tag. -/
structure DAttrs where
  dataListIndent : Option String
  dataTaskList : Option String
  start : Option String
  styleProps : List String
  nodeId : Nat
deriving DecidableEq

/-- A DOM node: an element (with `tagName`, attributes, child nodes) or a
text node. -/
inductive Dom where
  | elem (tag : String) (attrs : DAttrs) (children : List Dom)
  | textNode

mutual

def domBEq : Dom → Dom → Bool
  | .textNode, .textNode => true
  | .elem t a cs, .elem t2 a2 cs2 => decide (t = t2) && decide (a = a2) && domListBEq cs cs2
  | .textNode, .elem _ _ _ => false
  | .elem _ _ _, .textNode => false

def domListBEq : List Dom → List Dom → Bool
  | [], [] => true
  | c :: cs, d :: ds => domBEq c d && domListBEq cs ds
  | [], _ :: _ => false
  | _ :: _, [] => false

end

mutual

theorem domBEq_iff : ∀ (a b : Dom), domBEq a b = true ↔ a = b
  | .textNode, .textNode => by simp [domBEq]
  | .textNode, .elem _ _ _ => by simp [domBEq]
  | .elem _ _ _, .textNode => by simp [domBEq]
  | .elem t a cs, .elem t2 a2 cs2 => by
    rw [show domBEq (.elem t a cs) (.elem t2 a2 cs2) =
        (decide (t = t2) && decide (a = a2) && domListBEq cs cs2) from rfl]
    simp [Bool.and_eq_true, decide_eq_true_iff, domListBEq_iff cs cs2,
      Dom.elem.injEq, and_assoc]

theorem domListBEq_iff : ∀ (as bs : List Dom), domListBEq as bs = true ↔ as = bs
  | [], [] => by simp [domListBEq]
  | [], _ :: _ => by simp [domListBEq]
  | _ :: _, [] => by simp [domListBEq]
  | c :: cs, d :: ds => by
    rw [show domListBEq (c :: cs) (d :: ds) = (domBEq c d && domListBEq cs ds) from rfl]
    simp [Bool.and_eq_true, domBEq_iff c d, domListBEq_iff cs ds]

end

instance : DecidableEq Dom := fun a b =>
  decidable_of_iff (domBEq a b = true) (domBEq_iff a b)

def Dom.tagOf : Dom → String
  | .elem t _ _ => t
  | .textNode => ""

def Dom.attrsOf : Dom → DAttrs
  | .elem _ a _ => a
  | .textNode => ⟨none, none, none, [], 0⟩

def Dom.childrenOf : Dom → List Dom
  | .elem _ _ cs => cs
  | .textNode => []

def isElem : Dom → Bool
  | .elem _ _ _ => true
  | .textNode => false

def isLabel : Dom → Bool
  | .elem "LABEL" _ _ => true
  | _ => false

/-- `getElementListType`: `OL` → ordered; `UL` → task when `data-task-list`
is `""` or `"true"`, else unordered; anything else is not a list wrapper. -/
def getElementListType (e : Dom) : Option LType :=
  match e with
  | .elem t a _ =>
    if t = "OL" then some .ordered
    else if t = "UL" then
      if a.dataTaskList = some "" ∨ a.dataTaskList = some "true" then some .task
      else some .unordered
    else none
  | .textNode => none

/-- Index of the last element child (`lastElementChild`), if any. -/
def lastElementIdx : List Dom → Option Nat
  | [] => none
  | c :: cs =>
    match lastElementIdx cs with
    | some i => some (i + 1)
    | none => if isElem c then some 0 else none

/-- The index within the `li`'s children of its content element, or `none`
when the content element is the `li` itself: a task `li` shaped like the
task `renderHTML` output (first element child a `label`, last element child
an element) has its last element child as content. -/
def contentIdx (listType : LType) (li : Dom) : Option Nat :=
  if listType = .task
      ∧ (li.childrenOf.find? isElem).map isLabel = some true
      ∧ (lastElementIdx li.childrenOf).isSome = true
  then lastElementIdx li.childrenOf
  else none

/-- `getContentElement`: the content element itself. -/
def getContentElement (listType : LType) (li : Dom) : Dom :=
  match contentIdx listType li with
  | some i => li.childrenOf.getD i .textNode
  | none => li

/-- The serialization mode hint. -/
inductive UsedFor where
  | getHTML
  | clipboard
deriving DecidableEq

/-- The per-`li` cleanup: for `getHTML`, remove `data-list-indent`; for
`clipboard`, replace the `li`'s children by its content element's children
(when the content element is not the `li` itself) and remove the `style`
attribute. -/
def liCleanup (usedFor : UsedFor) (listType : LType) (li : Dom) : Dom :=
  match usedFor, li with
  | .getHTML, .elem t a cs => .elem t { a with dataListIndent := none } cs
  | .clipboard, .elem t a cs =>
    .elem t { a with styleProps := [] }
      (match contentIdx listType (.elem t a cs) with
       | some i => (cs.getD i .textNode).childrenOf
       | none => cs)
  | _, .textNode => .textNode

/-- The per-wrapper cleanup on the new-list branch: remove `start`, remove
the `margin-left` style property, and for `clipboard` the whole `style`
attribute. -/
def blockCleanup (usedFor : UsedFor) (b : Dom) : Dom :=
  match b with
  | .elem t a cs =>
    .elem t
      { a with start := none,
               styleProps := if usedFor = .clipboard then []
                             else a.styleProps.erase "margin-left" } cs
  | .textNode => .textNode

/-- Replace the first child node (`liChild` is mutated in place in JS, so
the wrapper keeps holding the cleaned `li`). -/
def setFirstChild (b : Dom) (c : Dom) : Dom :=
  match b with
  | .elem t a (_ :: rest) => .elem t a (c :: rest)
  | .elem t a [] => .elem t a []
  | .textNode => .textNode

/-! ### Paths into the output forest -/

/-- A path into a forest of DOM trees: the first index picks the top-level
block, the rest descend through children. -/
abbrev Path := List Nat

def lookupNode : Dom → Path → Option Dom
  | d, [] => some d
  | .elem _ _ cs, i :: p =>
    match cs[i]? with
    | some c => lookupNode c p
    | none => none
  | .textNode, _ :: _ => none

def lookupForest (out : List Dom) (p : Path) : Option Dom :=
  match p with
  | [] => none
  | i :: p =>
    match out[i]? with
    | some d => lookupNode d p
    | none => none

/-- `append` a new last child onto the node at the given path. -/
def appendAtNode : Dom → Path → Dom → Dom
  | .elem t a cs, [], x => .elem t a (cs ++ [x])
  | .textNode, [], _ => .textNode
  | .elem t a cs, i :: p, x => .elem t a (cs.modify (fun c => appendAtNode c p x) i)
  | .textNode, _ :: _, _ => .textNode

def appendAtForest (out : List Dom) (p : Path) (x : Dom) : List Dom :=
  match p with
  | [] => out
  | i :: p => out.modify (fun d => appendAtNode d p x) i

/-- `lastLists[indent] = block` with JS semantics (pad absent slots). -/
def listsSet (r : List (Option Path)) (i : Nat) (p : Path) : List (Option Path) :=
  if i < r.length then r.set i (some p)
  else (r ++ List.replicate (i - r.length) none) ++ [some p]

/-! ### The fold -/

/-- The loop state: the processed output forest and, per indent level, the
path of the `lastLists` entry (the JS element reference). -/
structure JoinSt where
  out : List Dom
  lastLists : List (Option Path)

/-- The new-list branch: clean the wrapper, nest it under the previous
indent level's list when `indent > 0` and that level has an entry, record
it at `indent` and truncate higher levels.  A recorded path that fails to
resolve to a list element cannot arise from this fold (JS holds direct
element references); such states fall back to a top-level append. -/
def joinNewList (usedFor : UsedFor) (st : JoinSt) (block2 : Dom) (indent : Nat) : JoinSt :=
  let block3 := blockCleanup usedFor block2
  let top : JoinSt :=
    { out := st.out ++ [block3],
      lastLists := (listsSet st.lastLists indent [st.out.length]).take (indent + 1) }
  if 0 < indent then
    match st.lastLists.getD (indent - 1) none with
    | some parentPath =>
      match (lookupForest st.out parentPath).bind (fun pl =>
          (getElementListType pl).map (fun plt => (pl, plt))) with
      | some (parentList, parentListType) =>
        let parentLi := (parentList.childrenOf.getLast?).getD .textNode
        let cpath := parentPath ++ [parentList.childrenOf.length - 1] ++
          (match contentIdx parentListType parentLi with
           | some ci => [ci]
           | none => [])
        { out := appendAtForest st.out cpath block3,
          lastLists :=
            (listsSet st.lastLists indent
              (cpath ++ [(getContentElement parentListType parentLi).childrenOf.length])).take
              (indent + 1) }
      | none => top
    | none => top
  else top

/-- One iteration of the `joinListElements` loop on a top-level block.  JS
iterates `doc.children` (element children only) with `i--` compensating for
the nodes it moves or removes; the fold is over the input blocks, with
`out` the already-processed prefix. -/
def joinStep (usedFor : UsedFor) (st : JoinSt) (block : Dom) : JoinSt :=
  match getElementListType block with
  | none => { out := st.out ++ [block], lastLists := [] }
  | some listType =>
    -- `block.firstChild` (includes text nodes)
    let liChild := (block.childrenOf.head?).getD .textNode
    -- `?? 0` for an absent/unparsable attribute; `toNat` because JS array
    -- indexing with a negative indent degenerates (see `computeIndent` /
    -- C10) and is outside the serializer's output domain
    let indent := ((parseIntegerAttr liChild.attrsOf.dataListIndent).getD 0).toNat
    let li2 := liCleanup usedFor listType liChild
    let block2 := setFirstChild block li2
    match st.lastLists.getD indent none with
    | some lastPath =>
      if (lookupForest st.out lastPath).bind getElementListType = some listType then
        -- merge: move the cleaned `li` into the existing list, drop the wrapper
        { out := appendAtForest st.out lastPath li2,
          lastLists := st.lastLists.take (indent + 1) }
      else joinNewList usedFor st block2 indent
    | none => joinNewList usedFor st block2 indent

/-- `joinListElements`: fold the loop over the serializer's top-level
blocks, starting from an empty output and no recorded lists. -/
def joinListElements (usedFor : UsedFor) (blocks : List Dom) : List Dom :=
  (blocks.foldl (joinStep usedFor) ⟨[], []⟩).out

/-! ### Re-parsing: indent inference over a DOM tree

The extensions' parse rules assign each `li` the list type of its nearest
enclosing list wrapper and the indent from `computeIndent` (stored
attribute, else ancestor `ol`/`ul` count). -/

mutual

def liEntriesGo : Nat → Option LType → Dom → List (LType × Int)
  | _, _, .textNode => []
  | nLists, ctx, .elem t a cs =>
    (if t = "LI" then
      match ctx with
      | some lt => [(lt, computeIndent a.dataListIndent nLists)]
      | none => []
     else []) ++
    liEntriesListGo
      (if t = "UL" ∨ t = "OL" then nLists + 1 else nLists)
      (match getElementListType (.elem t a cs) with
       | some lt => some lt
       | none => ctx)
      cs

def liEntriesListGo : Nat → Option LType → List Dom → List (LType × Int)
  | _, _, [] => []
  | nLists, ctx, c :: cs => liEntriesGo nLists ctx c ++ liEntriesListGo nLists ctx cs

end

/-! ### C7: fold / export round-trip on a concrete document -/

/-- Three serializer-rendered unordered wrappers (`ul` holding one `li`) at
indents 0, 1, 1, with distinct `nodeId`s. -/
def c7block (id liId : Nat) (ind : String) : Dom :=
  .elem "UL" ⟨none, none, none, [], id⟩
    [.elem "LI" ⟨some ind, none, none, [], liId⟩ [.textNode]]

def c7doc : List Dom := [c7block 0 1 "0", c7block 2 3 "1", c7block 4 5 "1"]

/-- The folded result: one outer `ul` with one `li` containing a nested
`ul` with two `li` siblings (the second and third wrappers' `li`s; the
third wrapper itself is dropped by the merge). -/
def c7out : List Dom :=
  [.elem "UL" ⟨none, none, none, [], 0⟩
    [.elem "LI" ⟨none, none, none, [], 1⟩
      [.textNode,
       .elem "UL" ⟨none, none, none, [], 2⟩
         [.elem "LI" ⟨none, none, none, [], 3⟩ [.textNode],
          .elem "LI" ⟨none, none, none, [], 5⟩ [.textNode]]]]]

/-- **C7.**  Folding three consecutive unordered items at indents
`[0, 1, 1]` (in `getHTML` mode) produces exactly one outer `ul` containing
one `li`, which contains a nested `ul` with two `li` siblings; re-parsing
that tree by indent inference recovers indents `[0, 1, 1]` and list type
unordered for all three items. -/
theorem claim_C7 :
    joinListElements .getHTML c7doc = c7out ∧
    liEntriesListGo 0 none (joinListElements .getHTML c7doc) =
      [(.unordered, 0), (.unordered, 1), (.unordered, 1)] := by
  constructor
  · decide
  · decide

/-! ### C9: attribute handling per serialization mode

Machinery: a predicate over every `li` element of a tree, the collection of
`li` attributes of a tree, and preservation of the predicate under the
fold's appends. -/

mutual

/-- `p` holds of the attributes of every `LI` element in the tree. -/
def allLisB (p : DAttrs → Bool) : Dom → Bool
  | .textNode => true
  | .elem t a cs => (if t = "LI" then p a else true) && allLisListB p cs

def allLisListB (p : DAttrs → Bool) : List Dom → Bool
  | [] => true
  | c :: cs => allLisB p c && allLisListB p cs

end

/-- The tree contains no `LI` element at all. -/
def noLis : Dom → Bool := allLisB (fun _ => false)

mutual

/-- The attributes of every `LI` element in the tree, in document order. -/
def lisOf : Dom → List DAttrs
  | .textNode => []
  | .elem t a cs => (if t = "LI" then [a] else []) ++ lisOfList cs

def lisOfList : List Dom → List DAttrs
  | [] => []
  | c :: cs => lisOf c ++ lisOfList cs

end

theorem allLisListB_cons (p : DAttrs → Bool) (c : Dom) (cs : List Dom) :
    allLisListB p (c :: cs) = (allLisB p c && allLisListB p cs) := rfl

theorem allLisListB_forall (p : DAttrs → Bool) :
    ∀ cs : List Dom, allLisListB p cs = true ↔ ∀ c ∈ cs, allLisB p c = true := by
  intro cs
  induction cs with
  | nil => simp [allLisListB]
  | cons c cs ih =>
    rw [allLisListB_cons, Bool.and_eq_true, ih]
    simp

theorem allLisListB_append (p : DAttrs → Bool) (cs ds : List Dom) :
    allLisListB p (cs ++ ds) = true ↔
      (allLisListB p cs = true ∧ allLisListB p ds = true) := by
  rw [allLisListB_forall, allLisListB_forall, allLisListB_forall]
  simp [or_imp, forall_and]

mutual

theorem noLis_allLisB (p : DAttrs → Bool) : ∀ d : Dom, noLis d = true → allLisB p d = true
  | .textNode, _ => rfl
  | .elem t a cs, h => by
    have h2 : ((if t = "LI" then false else true) && allLisListB (fun _ => false) cs) = true := h
    rw [Bool.and_eq_true] at h2
    show ((if t = "LI" then p a else true) && allLisListB p cs) = true
    rw [Bool.and_eq_true]
    refine ⟨?_, noLis_allLisListB p cs h2.2⟩
    by_cases ht : t = "LI"
    · rw [if_pos ht] at h2
      exact absurd h2.1 (by simp)
    · rw [if_neg ht]

theorem noLis_allLisListB (p : DAttrs → Bool) :
    ∀ cs : List Dom, allLisListB (fun _ => false) cs = true → allLisListB p cs = true
  | [], _ => rfl
  | c :: cs, h => by
    rw [allLisListB_cons, Bool.and_eq_true] at h ⊢
    exact ⟨noLis_allLisB p c h.1, noLis_allLisListB p cs h.2⟩

end

theorem allLis_modify (p : DAttrs → Bool) (f : Dom → Dom) (i : Nat) (cs : List Dom)
    (h : ∀ c ∈ cs, allLisB p c = true)
    (hf : ∀ c, allLisB p c = true → allLisB p (f c) = true) :
    ∀ c ∈ cs.modify f i, allLisB p c = true := by
  intro c hc
  rcases List.mem_iff_getElem?.mp hc with ⟨j, hj⟩
  rw [List.getElem?_modify] at hj
  rcases h0 : cs[j]? with _ | c0
  · rw [h0] at hj
    cases hj
  · rw [h0] at hj
    have hj2 : some (if i = j then f c0 else c0) = some c := hj
    injection hj2 with hj
    have hc0 : allLisB p c0 = true := h c0 (List.mem_iff_getElem?.mpr ⟨j, h0⟩)
    by_cases hij : i = j
    · rw [if_pos hij] at hj
      rw [← hj]
      exact hf c0 hc0
    · rw [if_neg hij] at hj
      rw [← hj]
      exact hc0

theorem allLisB_appendAtNode (p : DAttrs → Bool) (x : Dom) :
    ∀ (path : Path) (d : Dom), allLisB p d = true → allLisB p x = true →
      allLisB p (appendAtNode d path x) = true := by
  intro path
  induction path with
  | nil =>
    intro d hd hx
    rcases d with ⟨t, a, cs⟩ | _
    · show allLisB p (.elem t a (cs ++ [x])) = true
      have hd2 : ((if t = "LI" then p a else true) && allLisListB p cs) = true := hd
      rw [Bool.and_eq_true] at hd2
      show ((if t = "LI" then p a else true) && allLisListB p (cs ++ [x])) = true
      rw [Bool.and_eq_true]
      refine ⟨hd2.1, (allLisListB_append p cs [x]).mpr ⟨hd2.2, ?_⟩⟩
      rw [allLisListB_cons, Bool.and_eq_true]
      exact ⟨hx, rfl⟩
    · exact hd
  | cons i path ih =>
    intro d hd hx
    rcases d with ⟨t, a, cs⟩ | _
    · show allLisB p (.elem t a (cs.modify (fun c => appendAtNode c path x) i)) = true
      have hd2 : ((if t = "LI" then p a else true) && allLisListB p cs) = true := hd
      rw [Bool.and_eq_true] at hd2
      show ((if t = "LI" then p a else true) &&
          allLisListB p (cs.modify (fun c => appendAtNode c path x) i)) = true
      rw [Bool.and_eq_true]
      refine ⟨hd2.1, (allLisListB_forall p _).mpr ?_⟩
      exact allLis_modify p _ i cs ((allLisListB_forall p cs).mp hd2.2)
        (fun c hc => ih c hc hx)
    · exact hd

theorem allLis_appendAtForest (p : DAttrs → Bool) (out : List Dom) (path : Path) (x : Dom)
    (h : ∀ d ∈ out, allLisB p d = true) (hx : allLisB p x = true) :
    ∀ d ∈ appendAtForest out path x, allLisB p d = true := by
  rcases path with _ | ⟨i, path⟩
  · exact h
  · exact allLis_modify p _ i out h (fun c hc => allLisB_appendAtNode p x path c hc hx)

/-- Shape of one serializer-rendered `li`: tag `LI`, no `LI` elements below
it. -/
def liShape : Dom → Bool
  | .elem "LI" _ lcs => allLisListB (fun _ => false) lcs
  | _ => false

/-- Well-formed serializer output block: a list wrapper holds exactly one
`li` (of `liShape`); a non-list block is an element (`doc.children` yields
only elements) containing no `li`s. -/
def blockWFB (b : Dom) : Bool :=
  if (getElementListType b).isSome then
    match b.childrenOf with
    | [li] => liShape li
    | _ => false
  else isElem b && noLis b

theorem liShape_inv (li : Dom) (h : liShape li = true) :
    ∃ la lcs, li = .elem "LI" la lcs ∧ allLisListB (fun _ => false) lcs = true := by
  unfold liShape at h
  split at h
  · exact ⟨_, _, rfl, h⟩
  · cases h

theorem blockWF_list (block : Dom) (lt : LType) (hwf : blockWFB block = true)
    (hlt : getElementListType block = some lt) :
    ∃ la lcs, block.childrenOf = [.elem "LI" la lcs]
      ∧ allLisListB (fun _ => false) lcs = true := by
  unfold blockWFB at hwf
  rw [if_pos (by rw [hlt]; rfl)] at hwf
  split at hwf
  · rename_i li heq
    rcases liShape_inv li hwf with ⟨la, lcs, rfl, hlcs⟩
    exact ⟨la, lcs, heq, hlcs⟩
  · cases hwf

theorem blockWF_nonlist (block : Dom) (hwf : blockWFB block = true)
    (hlt : getElementListType block = none) : noLis block = true := by
  unfold blockWFB at hwf
  rw [if_neg (by rw [hlt]; simp)] at hwf
  rw [Bool.and_eq_true] at hwf
  exact hwf.2

theorem noLis_children (d : Dom) (h : noLis d = true) :
    allLisListB (fun _ => false) d.childrenOf = true := by
  rcases d with ⟨t, a, cs⟩ | _
  · have h2 : ((if t = "LI" then false else true) &&
        allLisListB (fun _ => false) cs) = true := h
    rw [Bool.and_eq_true] at h2
    exact h2.2
  · rfl

theorem noLis_getD_children (lcs : List Dom) (i : Nat)
    (h : allLisListB (fun _ => false) lcs = true) :
    allLisListB (fun _ => false) (lcs.getD i .textNode).childrenOf = true := by
  by_cases hi : i < lcs.length
  · refine noLis_children _ ?_
    rw [List.getD_eq_getElem lcs .textNode hi]
    exact (allLisListB_forall _ lcs).mp h _ (List.getElem_mem hi)
  · rw [List.getD_eq_default lcs .textNode (Nat.le_of_not_lt hi)]
    rfl

theorem getElementListType_tag (t : String) (a : DAttrs) (cs : List Dom) (lt : LType)
    (h : getElementListType (.elem t a cs) = some lt) : t = "OL" ∨ t = "UL" := by
  have h2 : (if t = "OL" then some LType.ordered
      else if t = "UL" then
        (if a.dataTaskList = some "" ∨ a.dataTaskList = some "true" then some LType.task
         else some LType.unordered)
      else none) = some lt := h
  by_cases h1 : t = "OL"
  · exact Or.inl h1
  · rw [if_neg h1] at h2
    by_cases hu : t = "UL"
    · exact Or.inr hu
    · rw [if_neg hu] at h2
      cases h2

theorem allLisB_elem_singleton (p : DAttrs → Bool) (t : String) (a : DAttrs) (c : Dom)
    (ht : t = "LI" → p a = true) (hc : allLisB p c = true) :
    allLisB p (.elem t a [c]) = true := by
  show ((if t = "LI" then p a else true) && allLisListB p [c]) = true
  rw [Bool.and_eq_true, allLisListB_cons, Bool.and_eq_true]
  refine ⟨?_, hc, rfl⟩
  by_cases h : t = "LI"
  · rw [if_pos h]
    exact ht h
  · rw [if_neg h]

theorem joinStep_allLis (usedFor : UsedFor) (p : DAttrs → Bool) (st : JoinSt) (block : Dom)
    (hst : ∀ d ∈ st.out, allLisB p d = true)
    (hwf : blockWFB block = true)
    (hp : ∀ lt, getElementListType block = some lt →
        p ((liCleanup usedFor lt ((block.childrenOf.head?).getD .textNode)).attrsOf) = true) :
    ∀ d ∈ (joinStep usedFor st block).out, allLisB p d = true := by
  rcases hgt : getElementListType block with _ | lt
  · have hout : (joinStep usedFor st block).out = st.out ++ [block] := by
      unfold joinStep
      rw [hgt]
    rw [hout]
    intro d hd
    rcases List.mem_append.mp hd with hd | hd
    · exact hst d hd
    · rcases List.mem_singleton.mp hd with rfl
      exact noLis_allLisB p _ (blockWF_nonlist _ hwf hgt)
  · rcases blockWF_list block lt hwf hgt with ⟨la, lcs, hch, hlcs⟩
    have hhead : (block.childrenOf.head?).getD .textNode = .elem "LI" la lcs := by
      rw [hch]
      rfl
    -- the cleaned li satisfies the predicate, and carries no deeper lis
    have hli2 : allLisB p (liCleanup usedFor lt ((block.childrenOf.head?).getD .textNode)) =
        true := by
      have hpa := hp lt hgt
      rcases usedFor with _ | _
      · rw [hhead] at hpa ⊢
        show ((if "LI" = "LI" then p { la with dataListIndent := none } else true) &&
          allLisListB p lcs) = true
        rw [Bool.and_eq_true, if_pos rfl]
        exact ⟨hpa, noLis_allLisListB p lcs hlcs⟩
      · rw [hhead] at hpa ⊢
        show ((if "LI" = "LI" then p { la with styleProps := [] } else true) &&
          allLisListB p
            (match contentIdx lt (.elem "LI" la lcs) with
             | some i => (lcs.getD i .textNode).childrenOf
             | none => lcs)) = true
        rw [Bool.and_eq_true, if_pos rfl]
        refine ⟨hpa, ?_⟩
        rcases contentIdx lt (.elem "LI" la lcs) with _ | i
        · exact noLis_allLisListB p lcs hlcs
        · exact noLis_allLisListB p _ (noLis_getD_children lcs i hlcs)
    -- the cleaned wrapper likewise
    have hblock3 : allLisB p (blockCleanup usedFor (setFirstChild block
        (liCleanup usedFor lt ((block.childrenOf.head?).getD .textNode)))) = true := by
      rcases block with ⟨t, a, cs⟩ | _
      · have hcs : cs = [.elem "LI" la lcs] := hch
        subst hcs
        refine allLisB_elem_singleton p t _ _ ?_ hli2
        intro hti
        rcases getElementListType_tag t a _ lt hgt with rfl | rfl <;>
          exact absurd hti (by decide)
      · cases hgt
    -- the step's output is the old forest plus one of those nodes
    have hshape : (joinStep usedFor st block).out =
        st.out ++ [blockCleanup usedFor (setFirstChild block
          (liCleanup usedFor lt ((block.childrenOf.head?).getD .textNode)))] ∨
        (∃ q, (joinStep usedFor st block).out = appendAtForest st.out q
          (liCleanup usedFor lt ((block.childrenOf.head?).getD .textNode))) ∨
        (∃ q, (joinStep usedFor st block).out = appendAtForest st.out q
          (blockCleanup usedFor (setFirstChild block
            (liCleanup usedFor lt ((block.childrenOf.head?).getD .textNode))))) := by
      unfold joinStep joinNewList
      rw [hgt]
      simp only []
      split
      · split
        · exact Or.inr (Or.inl ⟨_, rfl⟩)
        · split
          · split
            · split
              · exact Or.inr (Or.inr ⟨_, rfl⟩)
              · exact Or.inl rfl
            · exact Or.inl rfl
          · exact Or.inl rfl
      · split
        · split
          · split
            · exact Or.inr (Or.inr ⟨_, rfl⟩)
            · exact Or.inl rfl
          · exact Or.inl rfl
        · exact Or.inl rfl
    rcases hshape with hout | ⟨q, hout⟩ | ⟨q, hout⟩
    · rw [hout]
      intro d hd
      rcases List.mem_append.mp hd with hd | hd
      · exact hst d hd
      · rcases List.mem_singleton.mp hd with rfl
        exact hblock3
    · rw [hout]
      exact allLis_appendAtForest p st.out q _ hst hli2
    · rw [hout]
      exact allLis_appendAtForest p st.out q _ hst hblock3

theorem joinListElements_allLis (usedFor : UsedFor) (p : DAttrs → Bool) (blocks : List Dom)
    (hwf : ∀ b ∈ blocks, blockWFB b = true)
    (hp : ∀ b ∈ blocks, ∀ lt, getElementListType b = some lt →
        p ((liCleanup usedFor lt ((b.childrenOf.head?).getD .textNode)).attrsOf) = true) :
    ∀ d ∈ joinListElements usedFor blocks, allLisB p d = true := by
  suffices h : ∀ (bs : List Dom) (st : JoinSt), (∀ b ∈ bs, blockWFB b = true) →
      (∀ b ∈ bs, ∀ lt, getElementListType b = some lt →
        p ((liCleanup usedFor lt ((b.childrenOf.head?).getD .textNode)).attrsOf) = true) →
      (∀ d ∈ st.out, allLisB p d = true) →
      ∀ d ∈ (bs.foldl (joinStep usedFor) st).out, allLisB p d = true by
    exact h blocks ⟨[], []⟩ hwf hp (by intro d hd; cases hd)
  intro bs
  induction bs with
  | nil =>
    intro st _ _ hst
    exact hst
  | cons b bs ih =>
    intro st hwf2 hp2 hst
    exact ih (joinStep usedFor st b)
      (fun x hx => hwf2 x (List.mem_cons_of_mem b hx))
      (fun x hx => hp2 x (List.mem_cons_of_mem b hx))
      (joinStep_allLis usedFor p st b hst (hwf2 b (List.mem_cons_self b bs))
        (hp2 b (List.mem_cons_self b bs)))

theorem lisOf_mem_list : ∀ (blocks : List Dom) (b : Dom), b ∈ blocks →
    ∀ x ∈ lisOf b, x ∈ lisOfList blocks := by
  intro blocks
  induction blocks with
  | nil =>
    intro b hb
    cases hb
  | cons c cs ih =>
    intro b hb x hx
    rcases List.mem_cons.mp hb with rfl | hb2
    · show x ∈ lisOf b ++ lisOfList cs
      exact List.mem_append.mpr (Or.inl hx)
    · show x ∈ lisOf c ++ lisOfList cs
      exact List.mem_append.mpr (Or.inr (ih b hb2 x hx))

theorem liCleanup_clipboard_mem (blocks : List Dom) (b : Dom) (hb : b ∈ blocks)
    (hwf : blockWFB b = true) (lt : LType) (hlt : getElementListType b = some lt) :
    ((lisOfList blocks).any (fun a =>
        decide (a.nodeId =
          ((liCleanup .clipboard lt ((b.childrenOf.head?).getD .textNode)).attrsOf).nodeId) &&
        decide (((liCleanup .clipboard lt
            ((b.childrenOf.head?).getD .textNode)).attrsOf).dataListIndent =
          a.dataListIndent) &&
        decide (((liCleanup .clipboard lt
            ((b.childrenOf.head?).getD .textNode)).attrsOf).styleProps =
          ([] : List String)))) = true := by
  rcases blockWF_list b lt hwf hlt with ⟨la, lcs, hch, _⟩
  have hhead : (b.childrenOf.head?).getD .textNode = .elem "LI" la lcs := by
    rw [hch]
    rfl
  rw [hhead]
  have hmem : la ∈ lisOf b := by
    rcases b with ⟨t, a, cs⟩ | _
    · have hcs : cs = [.elem "LI" la lcs] := hch
      subst hcs
      show la ∈ (if t = "LI" then [a] else []) ++ lisOfList [.elem "LI" la lcs]
      refine List.mem_append.mpr (Or.inr ?_)
      show la ∈ lisOf (.elem "LI" la lcs) ++ lisOfList []
      refine List.mem_append.mpr (Or.inl ?_)
      show la ∈ (if "LI" = "LI" then [la] else []) ++ lisOfList lcs
      rw [if_pos rfl]
      exact List.mem_append.mpr (Or.inl (List.mem_singleton.mpr rfl))
    · cases hch
  refine List.any_eq_true.mpr ⟨la, lisOf_mem_list blocks b hb la hmem, ?_⟩
  show (decide (la.nodeId = ({ la with styleProps := [] } : DAttrs).nodeId) &&
    decide (({ la with styleProps := [] } : DAttrs).dataListIndent = la.dataListIndent) &&
    decide (({ la with styleProps := [] } : DAttrs).styleProps = ([] : List String))) = true
  simp

/-- **C9.**  For well-formed serializer output (each list wrapper holding a
single `li`, no stray `li`s elsewhere), `joinListElements` in `getHTML`
mode leaves every `li` of its result with no `data-list-indent` attribute,
while in `clipboard` mode every `li` of the result carries the same
`data-list-indent` as the input `li` it came from (matched by `nodeId`) and
has its `style` attribute removed. -/
theorem claim_C9 (blocks : List Dom) (hwf : ∀ b ∈ blocks, blockWFB b = true) :
    (∀ d ∈ joinListElements .getHTML blocks,
        allLisB (fun a => a.dataListIndent.isNone) d = true) ∧
    (∀ d ∈ joinListElements .clipboard blocks,
        allLisB (fun a2 => (lisOfList blocks).any (fun a =>
            decide (a.nodeId = a2.nodeId) &&
            decide (a2.dataListIndent = a.dataListIndent) &&
            decide (a2.styleProps = ([] : List String)))) d = true) := by
  constructor
  · refine joinListElements_allLis .getHTML _ blocks hwf ?_
    intro b _ lt _
    rcases hli : (b.childrenOf.head?).getD .textNode with ⟨t, a, cs⟩ | _
    · rfl
    · rfl
  · refine joinListElements_allLis .clipboard _ blocks hwf ?_
    intro b hb lt hlt
    exact liCleanup_clipboard_mem blocks b hb (hwf b hb) lt hlt

/-- A concrete well-formed serializer output: one unordered wrapper with a
styled, indented `li`. -/
def c9doc : List Dom :=
  [.elem "UL" ⟨none, none, some "3", ["margin-left"], 0⟩
    [.elem "LI" ⟨some "0", none, none, ["color"], 1⟩ [.textNode]]]

/-- Witness for C9 at `c9doc`. -/
theorem claim_C9_witness :
    (∀ b ∈ c9doc, blockWFB b = true) ∧
    (∀ d ∈ joinListElements .getHTML c9doc,
        allLisB (fun a => a.dataListIndent.isNone) d = true) :=
  ⟨by decide, (claim_C9 c9doc (by decide)).1⟩

end FlatList
